import Mathlib

/-! The `copylocks` check of `cmd/vet`

A shallow embedding of `src/cmd/vet/copylock.go`: the lock-path search
`lockPath`, the path printer `typePath.String` and the signature scanner
`checkCopyLocks`, together with the properties stated about them.

The type checker (`go/types`) and the syntax tree (`go/ast`) are collaborators
of the check.  What `copylock.go` reads from them is taken as data: a type is a
handle, and a record of functions (`types.Info`) answers the queries
`Underlying`, `NewPointer`, `NewMethodSet` and `String` for every handle.
Nothing is assumed about that record, so type graphs with cycles of by-value
fields are among the inputs.  Because `lockPath` recurses on field types
without a bound of its own, the embedding threads a recursion budget: the
result `none` means the budget ran out, `some none` is Go's `nil` path and
`some (some p)` is the path `p`.
-/

namespace types

/-- Handle of a `types.Type` object; a possibly-nil `types.Type` is an `Option GoType`. -/
abbrev GoType := Nat

/-- Package object of the type checker (`*types.Package`). -/
structure Package where
  path : String
deriving DecidableEq, Repr

/-- Struct field (`*types.Var`): its name, its declared type (`Type()`) and
whether it is an embedded (anonymous) field. -/
structure Var where
  name : String
  typ : Option GoType
  anonymous : Bool
deriving DecidableEq, Repr

/-- Result of `Underlying()`: the kinds of unnamed types of `go/types`.  Only
`Struct` is inspected by the check; its fields are in declaration order. -/
inductive Shape where
  | Basic
  | Array (elem : Option GoType)
  | Slice (elem : Option GoType)
  | Struct (fields : List Var)
  | Pointer (elem : Option GoType)
  | Tuple
  | Signature
  | Interface
  | Map (key elem : Option GoType)
  | Chan (elem : Option GoType)
deriving DecidableEq, Repr

/-- Entry of a method set (`*types.Selection`). -/
structure Selection where
  obj : String
deriving DecidableEq, Repr

/-- Method set (`*types.MethodSet`), given by its `Lookup(pkg, name)` method;
`none` is the nil selection. -/
structure MethodSet where
  Lookup : Package → String → Option Selection

/-- The queries `copylock.go` makes to the type checker, for every type handle. -/
structure Info where
  Underlying : GoType → Shape
  NewPointer : GoType → GoType
  NewMethodSet : GoType → MethodSet
  String : GoType → String

/-- Reference-like shapes: copying a value of such a type copies a reference,
not what it refers to. -/
def Shape.isReferenceLike : Shape → Bool
  | Shape.Pointer _ => true
  | Shape.Interface => true
  | Shape.Slice _ => true
  | Shape.Map _ _ => true
  | Shape.Chan _ => true
  | _ => false

end types

namespace ast

/-- Type expression of a declaration (`ast.Expr`): its identity and its `Pos()`. -/
structure Expr where
  id : Nat
  Pos : Nat
deriving DecidableEq, Repr

/-- Identifier (`*ast.Ident`). -/
structure Ident where
  Name : String
deriving DecidableEq, Repr

/-- Entry of a field list (`*ast.Field`): the names declared together and the
type expression they share. -/
structure Field where
  Names : List Ident
  Typ : Expr
deriving DecidableEq, Repr

/-- Receiver, parameter or result list (`*ast.FieldList`). -/
structure FieldList where
  List : List Field
deriving DecidableEq, Repr

/-- Signature of a declaration (`*ast.FuncType`); `none` is a nil list. -/
structure FuncType where
  Params : Option FieldList
  Results : Option FieldList
deriving DecidableEq, Repr

/-- Function or method declaration (`*ast.FuncDecl`). -/
structure FuncDecl where
  Recv : Option FieldList
  Name : Ident
  Typ : FuncType
deriving DecidableEq, Repr

end ast

namespace vet

open types

/-- Go's `type typePath []types.Type`, innermost type first. -/
abbrev typePath := List GoType

/-- Outcome of a call of `lockPath`: `none` when the recursion budget is used
up, `some none` for the nil path, `some (some p)` for the path `p`. -/
abbrev PathResult := Option (Option typePath)

/-- The method `typePath.String`: the loop `for i := range path` writes
`" contains "` before every entry but the first and then the name of
`path[n-i-1]`. -/
def typePath.String (env : Info) (path : typePath) : String :=
  (List.finRange path.length).foldl
    (fun buf i =>
      let buf := if i.val > 0 then buf ++ " contains " else buf
      buf ++ env.String (path.get ⟨path.length - i.val - 1, by omega⟩))
    ""

/-- The field loop of `lockPath` (lines 96-105): the fields are tried in
declaration order, `rec` being the recursive call; the first non-nil sub-path
is returned with `typ` appended. -/
def lockPath.loop (rec : Option GoType → PathResult) (typ : GoType) :
    List Var → PathResult
  | [] => some none
  | fld :: rest =>
    match rec fld.typ with
    | none => none
    | some (some subpath) => some (some (subpath ++ [typ]))
    | some none => lockPath.loop rec typ rest

/-- The function `lockPath` (lines 75-106), with a budget for the depth of the
recursion. -/
def lockPath (env : Info) (tpkg : Package) : Nat → Option GoType → PathResult
  | 0, _ => none
  | _ + 1, none => some none
  | fuel + 1, some typ =>
    match env.Underlying typ with
    | Shape.Struct fields =>
      match (env.NewMethodSet (env.NewPointer typ)).Lookup tpkg "Lock",
            (env.NewMethodSet typ).Lookup tpkg "Lock" with
      | some _, none => some (some [typ])
      | _, _ => lockPath.loop (fun ftyp => lockPath env tpkg fuel ftyp) typ fields
    | _ => some none

/-- Diagnostic reported through `f.Badf`: a position and a message. -/
structure Diagnostic where
  pos : Nat
  msg : String
deriving DecidableEq, Repr

/-- Package under analysis (vet's `Package`): the type-checked package and the
map `types` from expressions to their types, where a missing entry has a nil
type. -/
structure Package where
  typesPkg : types.Package
  types : ast.Expr → Option GoType

/-- File under analysis (vet's `File`). -/
structure File where
  pkg : Package

/-- The call `f.Badf(pos, format, name, path)` for the two formats of
`checkCopyLocks`, `"%s passes Lock by value: %v"` and
`"%s returns Lock by value: %v"`: the report is added after those already
made.  `verb` is the text between the two directives. -/
def Badf (env : Info) (out : List Diagnostic) (pos : Nat) (name verb : String)
    (path : typePath) : List Diagnostic :=
  out ++ [{ pos := pos, msg := name ++ verb ++ typePath.String env path }]

/-- The loops over `d.Type.Params.List` and `d.Type.Results.List` (lines 39-44
and 48-53): every entry is examined, whatever the earlier ones gave. -/
def checkCopyLocks.loop (env : Info) (f : File) (fuel : Nat) (name verb : String) :
    List ast.Field → List Diagnostic → Option (List Diagnostic)
  | [], out => some out
  | field :: rest, out =>
    let expr := field.Typ
    match lockPath env f.pkg.typesPkg fuel (f.pkg.types expr) with
    | none => none
    | some (some path) =>
      checkCopyLocks.loop env f fuel name verb rest (Badf env out expr.Pos name verb path)
    | some none => checkCopyLocks.loop env f fuel name verb rest out

/-- The function `checkCopyLocks` (lines 28-55); the result is the list of
reports in the order they are made, or `none` when a call of `lockPath` uses
up the budget. -/
def checkCopyLocks (env : Info) (f : File) (fuel : Nat) (d : ast.FuncDecl) :
    Option (List Diagnostic) :=
  let recv : Option (List Diagnostic) :=
    match d.Recv with
    | some r =>
      match r.List with
      | field :: _ =>
        let expr := field.Typ
        match lockPath env f.pkg.typesPkg fuel (f.pkg.types expr) with
        | none => none
        | some (some path) =>
          some (Badf env [] expr.Pos d.Name.Name " passes Lock by value: " path)
        | some none => some []
      | [] => some []
    | none => some []
  recv.bind fun out =>
    let params : Option (List Diagnostic) :=
      match d.Typ.Params with
      | some ps =>
        checkCopyLocks.loop env f fuel d.Name.Name " passes Lock by value: " ps.List out
      | none => some out
    params.bind fun out =>
      match d.Typ.Results with
      | some rs =>
        checkCopyLocks.loop env f fuel d.Name.Name " returns Lock by value: " rs.List out
      | none => some out

/-! ## Vocabulary of the properties -/

/-- A bare lock: the underlying shape is a struct, `"Lock"` is in the method
set of the pointer to the type and not in the method set of the type. -/
def BareLock (env : Info) (tpkg : types.Package) (t : GoType) : Prop :=
  (∃ fields, env.Underlying t = Shape.Struct fields) ∧
  ((env.NewMethodSet (env.NewPointer t)).Lookup tpkg "Lock").isSome = true ∧
  (env.NewMethodSet t).Lookup tpkg "Lock" = none

/-- Value-embedded field: `inner` is the declared type of a field of the struct
underlying `outer`, and that type is not reference-like, so the field lies in
the struct's layout and is copied with it. -/
def ValueEmbedded (env : Info) (inner outer : GoType) : Prop :=
  ∃ fields f, env.Underlying outer = Shape.Struct fields ∧ f ∈ fields ∧
    f.typ = some inner ∧ (env.Underlying inner).isReferenceLike = false

/-- By-value containment, read from the outer type to the inner one. -/
def Contains (env : Info) (outer inner : GoType) : Prop :=
  ValueEmbedded env inner outer

/-- Whether a call of `lockPath` came back with a path (a non-nil result). -/
def isPath : PathResult → Bool
  | some (some _) => true
  | _ => false

/-- The receiver entry `checkCopyLocks` looks at: the first one, if any. -/
def recvEntries (d : ast.FuncDecl) : List ast.Field :=
  match d.Recv with
  | some r => r.List.take 1
  | none => []

/-- The entries of the parameter list; none for a nil list. -/
def paramEntries (d : ast.FuncDecl) : List ast.Field :=
  match d.Typ.Params with
  | some ps => ps.List
  | none => []

/-- The entries of the result list; none for a nil list. -/
def resultEntries (d : ast.FuncDecl) : List ast.Field :=
  match d.Typ.Results with
  | some rs => rs.List
  | none => []

/-- The declared type positions of a declaration, in the order
`checkCopyLocks` visits them: the type expression of the first receiver entry,
of every parameter-list entry and of every result-list entry. -/
def typePositions (d : ast.FuncDecl) : List ast.Expr :=
  (recvEntries d ++ paramEntries d ++ resultEntries d).map (fun field => field.Typ)

/-- The reports owed for a list of entries: one for each entry whose type has a
non-nil lock path, at the position of its type expression, in list order. -/
def expectedReports (env : Info) (f : File) (fuel : Nat) (name verb : String)
    (fs : List ast.Field) : List Diagnostic :=
  fs.filterMap fun field =>
    match lockPath env f.pkg.typesPkg fuel (f.pkg.types field.Typ) with
    | some (some path) =>
      some { pos := field.Typ.Pos, msg := name ++ verb ++ typePath.String env path }
    | _ => none

/-- One round of the loop of `typePath.String`, on the round number and the entry printed. -/
def stringStep (env : Info) (buf : String) (it : Nat × GoType) : String :=
  (if it.1 > 0 then buf ++ " contains " else buf) ++ env.String it.2

/-! ## A sample package

```go
type Counter struct { n int }
func (c *Counter) Lock() {}
type Safe struct { mu Counter }
type Ref struct { mu *Counter }
type Wrapper struct { Counter }          // Lock is promoted to *Wrapper
type Guarded struct { mu *Counter }
func (g *Guarded) Lock() {}
type Pair struct { x int; a Safe; b Counter }
type Plain struct { n int }
```

Handles: `Counter` 0, `Safe` 1, `Ref` 2, `int` 3, `Wrapper` 4, `Guarded` 5,
`Pair` 6, `Plain` 7; the pointer to the type with handle `t` is `100 + t`. -/

/-- Method set whose only method is `Lock`. -/
def lockOnly : MethodSet :=
  { Lookup := fun _ name => if name = "Lock" then some { obj := "Lock" } else none }

/-- The empty method set. -/
def noMethods : MethodSet :=
  { Lookup := fun _ _ => none }

/-- Type information of the sample package. -/
def sampleInfo : Info where
  Underlying := fun t =>
    match t with
    | 0 => Shape.Struct [{ name := "n", typ := some 3, anonymous := false }]
    | 1 => Shape.Struct [{ name := "mu", typ := some 0, anonymous := false }]
    | 2 => Shape.Struct [{ name := "mu", typ := some 100, anonymous := false }]
    | 3 => Shape.Basic
    | 4 => Shape.Struct [{ name := "Counter", typ := some 0, anonymous := true }]
    | 5 => Shape.Struct [{ name := "mu", typ := some 100, anonymous := false }]
    | 6 => Shape.Struct [{ name := "x", typ := some 3, anonymous := false },
                         { name := "a", typ := some 1, anonymous := false },
                         { name := "b", typ := some 0, anonymous := false }]
    | 7 => Shape.Struct [{ name := "n", typ := some 3, anonymous := false }]
    | t => if 100 ≤ t then Shape.Pointer (some (t - 100)) else Shape.Basic
  NewPointer := fun t => 100 + t
  NewMethodSet := fun t => if t = 100 ∨ t = 104 ∨ t = 105 then lockOnly else noMethods
  String := fun t =>
    match t with
    | 0 => "Counter"
    | 1 => "Safe"
    | 2 => "Ref"
    | 3 => "int"
    | 4 => "Wrapper"
    | 5 => "Guarded"
    | 6 => "Pair"
    | 7 => "Plain"
    | _ => "?"

/-- The sample package with the display names `types.Type.String` gives: a
named type is printed with the path of its package in front. -/
def sampleNamed : Info :=
  { sampleInfo with
    String := fun t =>
      match t with
      | 0 => "sample.Counter"
      | 1 => "sample.Safe"
      | 2 => "sample.Ref"
      | 3 => "int"
      | 4 => "sample.Wrapper"
      | 5 => "sample.Guarded"
      | 6 => "sample.Pair"
      | 7 => "sample.Plain"
      | _ => "?" }

/-- The sample package as the type checker names it. -/
def samplePkg : types.Package := { path := "sample" }

/-- Nesting depth of the sample types: every by-value field lies strictly lower. -/
def sampleRank : GoType → Nat
  | 0 => 1
  | 1 => 2
  | 4 => 2
  | 6 => 3
  | 7 => 1
  | _ => 0

/-- File of the sample package: the type expression with identity `i` denotes
the type with handle `i`. -/
def sampleFile : File :=
  { pkg := { typesPkg := samplePkg, types := fun e => some e.id } }

/-- The declaration `func Two(a Counter, b Safe)`. -/
def sampleTwo : ast.FuncDecl :=
  { Recv := none
    Name := { Name := "Two" }
    Typ :=
      { Params := some { List := [{ Names := [{ Name := "a" }], Typ := { id := 0, Pos := 10 } },
                                  { Names := [{ Name := "b" }], Typ := { id := 1, Pos := 20 } }] }
        Results := none } }

/-- The declaration `func Grouped(a, b Counter)`: two parameters declared in
one entry of the parameter list. -/
def sampleGrouped : ast.FuncDecl :=
  { Recv := none
    Name := { Name := "Grouped" }
    Typ :=
      { Params := some { List := [{ Names := [{ Name := "a" }, { Name := "b" }],
                                    Typ := { id := 0, Pos := 10 } }] }
        Results := none } }

/-- The declaration `func Inc(c Counter)`. -/
def sampleInc : ast.FuncDecl :=
  { Recv := none
    Name := { Name := "Inc" }
    Typ :=
      { Params := some { List := [{ Names := [{ Name := "c" }], Typ := { id := 0, Pos := 10 } }] }
        Results := none } }

/-- The declaration `func (p Pair) Mix(r Ref, s Safe) (Plain, Counter)`. -/
def sampleMix : ast.FuncDecl :=
  { Recv := some { List := [{ Names := [{ Name := "p" }], Typ := { id := 6, Pos := 5 } }] }
    Name := { Name := "Mix" }
    Typ :=
      { Params := some { List := [{ Names := [{ Name := "r" }], Typ := { id := 2, Pos := 10 } },
                                  { Names := [{ Name := "s" }], Typ := { id := 1, Pos := 20 } }] }
        Results := some { List := [{ Names := [], Typ := { id := 7, Pos := 30 } },
                                   { Names := [], Typ := { id := 0, Pos := 40 } }] } } }

/-- Malformed type information: the single struct `type Loop struct { next Loop }`
(handle 0) holds itself by value; it has no methods. -/
def loopInfo : Info where
  Underlying := fun t =>
    if t = 0 then Shape.Struct [{ name := "next", typ := some 0, anonymous := false }]
    else Shape.Basic
  NewPointer := fun t => 100 + t
  NewMethodSet := fun _ => noMethods
  String := fun _ => "Loop"

/-- Struct containment step: `inner` is the declared type of a field of the
struct underlying `outer`, and `inner` has struct shape itself. -/
def StructField (env : Info) (inner outer : GoType) : Prop :=
  ∃ fields f, env.Underlying outer = Shape.Struct fields ∧ f ∈ fields ∧
    f.typ = some inner ∧ ∃ fs, env.Underlying inner = Shape.Struct fs

/-- By-value struct containment is acyclic: no type reaches itself through a
chain of fields whose types have struct shape. -/
def AcyclicByValue (env : Info) : Prop :=
  ∀ t, ¬ Relation.TransGen (StructField env) t t

/-- Only finitely many handles denote struct types, as in any program. -/
def FinitelyManyStructs (env : Info) : Prop :=
  ∃ N, ∀ t, N ≤ t → ∀ fields, env.Underlying t ≠ Shape.Struct fields

/-- A bare lock can be reached from `T`: there is a chain of struct types
starting at `T`, each next one the declared type of some field of the one
before, that ends in a bare lock.  The chain may have no step at all. -/
def LockChain (env : Info) (tpkg : types.Package) (T : GoType) : Prop :=
  ∃ L, Relation.ReflTransGen (fun outer inner => StructField env inner outer) T L ∧
    BareLock env tpkg L

/-- The same type information with the embedded flag of every struct field
replaced by `flag`, all else unchanged. -/
def withFlags (env : Info) (flag : GoType → Var → Bool) : Info :=
  { env with
    Underlying := fun t =>
      match env.Underlying t with
      | Shape.Struct fields =>
        Shape.Struct (fields.map fun v => { v with anonymous := flag t v })
      | s => s }

/-- Modelled from the spec: the methods a type declares itself, by kind of
receiver; the methods of an interface type count as declared with a value
receiver.  They are the input of the Method-Set Resolver of section 4.1
(`types.NewMethodSet`, part of `go/types`, whose source is not at hand). -/
structure Declared where
  value : List String
  pointer : List String
deriving DecidableEq, Repr

/-- Modelled from the spec: a member that a type has under some name at depth
0, for the Method-Set Resolver of section 4.1 (`types.NewMethodSet`, whose
source is not at hand): a struct field, or a method the type declares, with
`ptrRecv` telling whether its receiver is a pointer. -/
inductive Member where
  | field
  | method (ptrRecv : Bool)
deriving DecidableEq, Repr

/-- Modelled from the spec: the members named `name` that the type `E` has
itself (section 4.1, standard promotion rules): its struct fields of that name
and the methods of that name it declares. -/
def ownMembers (env : Info) (decl : GoType → Declared) (name : String) (E : GoType) :
    List Member :=
  (match env.Underlying E with
    | Shape.Struct fields => (fields.filter fun v => v.name = name).map fun _ => Member.field
    | _ => []) ++
  (if name ∈ (decl E).value then [Member.method false] else []) ++
  (if name ∈ (decl E).pointer then [Member.method true] else [])

/-- Modelled from the spec: the type an embedded field brings in (section 4.1,
standard promotion rules): for an embedded `E` the type `E`, reached directly;
for an embedded `*E` the type `E`, reached through a pointer.  A field that is
not embedded brings in nothing. -/
def embeddedBase (env : Info) (f : Var) : Option (GoType × Bool) :=
  if f.anonymous then
    match f.typ with
    | some F =>
      match env.Underlying F with
      | Shape.Pointer (some E) => some (E, true)
      | _ => some (F, false)
    | none => none
  else none

/-- Modelled from the spec: the members named `name` one level down, those of
the types brought in by the embedded fields of a field list, each with the
mark of its field being a pointer (section 4.1, standard promotion rules). -/
def promotedFrom (env : Info) (decl : GoType → Declared) (name : String) :
    List Var → List (Member × Bool)
  | [] => []
  | f :: rest =>
    (match embeddedBase env f with
      | some (E, viaPtr) => (ownMembers env decl name E).map fun m => (m, viaPtr)
      | none => []) ++ promotedFrom env decl name rest

/-- Modelled from the spec: the candidates for promotion to the struct type
`T` under `name` (section 4.1, standard promotion rules). -/
def promotedMembers (env : Info) (decl : GoType → Declared) (name : String) (T : GoType) :
    List (Member × Bool) :=
  match env.Underlying T with
  | Shape.Struct fields => promotedFrom env decl name fields
  | _ => []

/-- Modelled from the spec: whether `name` is in the method set of `T`
(`ptr = false`) or of the pointer to `T` (`ptr = true`), by the standard
promotion rules that section 4.1 asks to reproduce (`types.NewMethodSet`,
whose source is not at hand), as far as depth 1.  The member at the shallowest
depth decides.  A struct field of that name is no method and hides deeper
methods; a name found twice at one depth is in neither method set; a method
with a pointer receiver is in the method set of a value only when it was
reached through an embedded pointer.  The answer `none` means that no member
was found down to depth 1: the rule is not modelled any deeper. -/
def resolveMethod (env : Info) (decl : GoType → Declared) (name : String) (T : GoType)
    (ptr : Bool) : Option Bool :=
  match ownMembers env decl name T with
  | [Member.method r] => some (ptr || !r)
  | _ :: _ => some false
  | [] =>
    match promotedMembers env decl name T with
    | [(Member.method r, viaPtr)] => some (ptr || viaPtr || !r)
    | _ :: _ => some false
    | [] => none

/-- Modelled from the spec: the method sets delivered for `T` and for the
pointer to `T` follow the promotion rule for `name` (section 4.1,
`types.NewMethodSet`, whose source is not at hand): wherever `resolveMethod`
gives an answer, the lookup of `name` agrees with it. -/
def FollowsPromotion (env : Info) (tpkg : types.Package) (decl : GoType → Declared)
    (name : String) (T : GoType) : Prop :=
  (∀ b, resolveMethod env decl name T false = some b →
    ((env.NewMethodSet T).Lookup tpkg name).isSome = b) ∧
  (∀ b, resolveMethod env decl name T true = some b →
    ((env.NewMethodSet (env.NewPointer T)).Lookup tpkg name).isSome = b)

/-- The methods declared in the sample package: `Lock` on `*Counter` and on
`*Guarded`. -/
def sampleDecl : GoType → Declared
  | 0 => { value := [], pointer := ["Lock"] }
  | 5 => { value := [], pointer := ["Lock"] }
  | _ => { value := [], pointer := [] }

/-! ## A package with two embedded fields

```go
type Counter struct { n int }
func (c *Counter) Lock() {}
type M struct {}
func (m M) Lock() {}
type Both struct { Counter; M }
type Held struct { c Counter }
func (h Held) Lock() {}
```

Handles: `Counter` 0, `M` 1, `Both` 2, `int` 3, `Held` 4; the pointer to the
type with handle `t` is `100 + t`.  The method sets are those of the promotion
rule: in `Both` the two `Lock` methods sit at the same depth, so neither `Both`
nor `*Both` has `Lock` in its method set. -/

/-- The methods declared in the package with two embedded fields. -/
def promoDecl : GoType → Declared
  | 0 => { value := [], pointer := ["Lock"] }
  | 1 => { value := ["Lock"], pointer := [] }
  | 4 => { value := ["Lock"], pointer := [] }
  | _ => { value := [], pointer := [] }

/-- Type information of the package with two embedded fields. -/
def promoInfo : Info where
  Underlying := fun t =>
    match t with
    | 0 => Shape.Struct [{ name := "n", typ := some 3, anonymous := false }]
    | 1 => Shape.Struct []
    | 2 => Shape.Struct [{ name := "Counter", typ := some 0, anonymous := true },
                         { name := "M", typ := some 1, anonymous := true }]
    | 4 => Shape.Struct [{ name := "c", typ := some 0, anonymous := false }]
    | t => if 100 ≤ t then Shape.Pointer (some (t - 100)) else Shape.Basic
  NewPointer := fun t => 100 + t
  NewMethodSet := fun t =>
    if t = 100 ∨ t = 1 ∨ t = 101 ∨ t = 4 ∨ t = 104 then lockOnly else noMethods
  String := fun t =>
    match t with
    | 0 => "Counter"
    | 1 => "M"
    | 2 => "Both"
    | 3 => "int"
    | 4 => "Held"
    | _ => "?"

end vet

/-! ## Unfolding and monotonicity of `lockPath` -/

namespace vet
open types

theorem lockPath_zero (env : Info) (tpkg : types.Package) (t : Option GoType) :
    lockPath env tpkg 0 t = none := by
  cases t <;> rfl

theorem lockPath_succ_nil (env : Info) (tpkg : types.Package) (fuel : Nat) :
    lockPath env tpkg (fuel + 1) none = some none := rfl

theorem lockPath_succ_not_struct (env : Info) (tpkg : types.Package) (fuel : Nat) (typ : GoType)
    (h : ∀ fields, env.Underlying typ ≠ Shape.Struct fields) :
    lockPath env tpkg (fuel + 1) (some typ) = some none := by
  unfold lockPath
  split
  · rename_i fields hs
    exact absurd hs (h fields)
  · rfl

theorem lockPath_succ_bare (env : Info) (tpkg : types.Package) (fuel : Nat) (typ : GoType)
    (h : BareLock env tpkg typ) :
    lockPath env tpkg (fuel + 1) (some typ) = some (some [typ]) := by
  obtain ⟨⟨fields, hs⟩, hp, hv⟩ := h
  obtain ⟨s, hs'⟩ := Option.isSome_iff_exists.mp hp
  simp only [lockPath, hs, hs', hv]

theorem lockPath_succ_loop (env : Info) (tpkg : types.Package) (fuel : Nat) (typ : GoType)
    (fields : List Var) (hs : env.Underlying typ = Shape.Struct fields)
    (h : ¬ BareLock env tpkg typ) :
    lockPath env tpkg (fuel + 1) (some typ) =
      lockPath.loop (fun ftyp => lockPath env tpkg fuel ftyp) typ fields := by
  simp only [lockPath, hs]
  split
  · rename_i s hp hv
    exact absurd ⟨⟨fields, hs⟩, by simp [hp], hv⟩ h
  · rfl

theorem lockPath.loop_mono {rec₁ rec₂ : Option GoType → PathResult}
    (h : ∀ t r, rec₁ t = some r → rec₂ t = some r) (typ : GoType) :
    ∀ (fs : List Var) (r : Option typePath),
      lockPath.loop rec₁ typ fs = some r → lockPath.loop rec₂ typ fs = some r
  | [], r, hr => by simpa [lockPath.loop] using hr
  | f :: rest, r, hr => by
    simp only [lockPath.loop] at hr ⊢
    cases h1 : rec₁ f.typ with
    | none => simp [h1] at hr
    | some x =>
      rw [h _ _ h1]
      rw [h1] at hr
      cases x with
      | none => exact lockPath.loop_mono h typ rest r hr
      | some sub => exact hr

theorem lockPath_mono_succ (env : Info) (tpkg : types.Package) :
    ∀ (n : Nat) (t : Option GoType) (r : Option typePath),
      lockPath env tpkg n t = some r → lockPath env tpkg (n + 1) t = some r
  | 0, t, r, h => by simp [lockPath_zero] at h
  | n + 1, none, r, h => by simpa [lockPath] using h
  | n + 1, some typ, r, h => by
    by_cases hb : BareLock env tpkg typ
    · rw [lockPath_succ_bare _ _ _ _ hb] at h ⊢
      exact h
    · by_cases hs : ∃ fields, env.Underlying typ = Shape.Struct fields
      · obtain ⟨fields, hs⟩ := hs
        rw [lockPath_succ_loop _ _ _ _ fields hs hb] at h ⊢
        exact lockPath.loop_mono (fun t r => lockPath_mono_succ env tpkg n t r) typ fields r h
      · have hs' : ∀ fields, env.Underlying typ ≠ Shape.Struct fields :=
          fun fields hf => hs ⟨fields, hf⟩
        rw [lockPath_succ_not_struct _ _ _ _ hs'] at h ⊢
        exact h

theorem lockPath_mono (env : Info) (tpkg : types.Package) {n m : Nat} (hnm : n ≤ m)
    {t : Option GoType} {r : Option typePath} (h : lockPath env tpkg n t = some r) :
    lockPath env tpkg m t = some r := by
  induction hnm with
  | refl => exact h
  | step _ ih => exact lockPath_mono_succ env tpkg _ t r ih

theorem lockPath.loop_all_nil (rec : Option GoType → PathResult) (typ : GoType) :
    ∀ (fs : List Var), (∀ f ∈ fs, rec f.typ = some none) →
      lockPath.loop rec typ fs = some none
  | [], _ => rfl
  | f :: rest, h => by
    simp only [lockPath.loop, h f (List.mem_cons_self f rest)]
    exact lockPath.loop_all_nil rec typ rest
      (fun g hg => h g (List.mem_cons_of_mem f hg))

theorem lockPath.loop_first (rec : Option GoType → PathResult) (typ : GoType)
    (f : Var) (post : List Var) (sub : typePath) (hf : rec f.typ = some (some sub)) :
    ∀ (pre : List Var), (∀ g ∈ pre, rec g.typ = some none) →
      lockPath.loop rec typ (pre ++ f :: post) = some (some (sub ++ [typ]))
  | [], _ => by simp only [List.nil_append, lockPath.loop, hf]
  | g :: pre, h => by
    simp only [List.cons_append, lockPath.loop, h g (List.mem_cons_self g pre)]
    exact lockPath.loop_first rec typ f post sub hf pre
      (fun g2 hg => h g2 (List.mem_cons_of_mem g hg))

theorem lockPath.loop_path_inv (rec : Option GoType → PathResult) (typ : GoType) :
    ∀ (fs : List Var) (p : typePath), lockPath.loop rec typ fs = some (some p) →
      ∃ f ∈ fs, ∃ sub, rec f.typ = some (some sub) ∧ p = sub ++ [typ]
  | [], p, h => by simp [lockPath.loop] at h
  | f :: rest, p, h => by
    simp only [lockPath.loop] at h
    cases h1 : rec f.typ with
    | none => simp [h1] at h
    | some x =>
      rw [h1] at h
      cases x with
      | none =>
        obtain ⟨g, hg, sub, hsub, hp⟩ := lockPath.loop_path_inv rec typ rest p h
        exact ⟨g, List.mem_cons_of_mem f hg, sub, hsub, hp⟩
      | some sub =>
        simp only [Option.some.injEq] at h
        exact ⟨f, List.mem_cons_self f rest, sub, h1, h.symm⟩

theorem lockPath.loop_returns (env : Info) (tpkg : types.Package) (typ : GoType) :
    ∀ (fs : List Var),
      (∀ f ∈ fs, ∃ n r, lockPath env tpkg n f.typ = some r) →
      ∃ n r, lockPath.loop (fun ftyp => lockPath env tpkg n ftyp) typ fs = some r
  | [], _ => ⟨0, none, rfl⟩
  | f :: rest, h => by
    obtain ⟨n1, r1, h1⟩ := h f (List.mem_cons_self f rest)
    obtain ⟨n2, r2, h2⟩ := lockPath.loop_returns env tpkg typ rest
      (fun g hg => h g (List.mem_cons_of_mem f hg))
    have h1m := lockPath_mono env tpkg (le_max_left n1 n2) h1
    cases r1 with
    | some sub => exact ⟨max n1 n2, some (sub ++ [typ]), by simp only [lockPath.loop, h1m]⟩
    | none =>
      refine ⟨max n1 n2, r2, ?_⟩
      simp only [lockPath.loop, h1m]
      exact lockPath.loop_mono
        (fun t r ht => lockPath_mono env tpkg (le_max_right n1 n2) ht) typ rest r2 h2

theorem lockPath_path_struct (env : Info) (tpkg : types.Package) (n : Nat) (t : GoType)
    (p : typePath) (h : lockPath env tpkg n (some t) = some (some p)) :
    ∃ fields, env.Underlying t = Shape.Struct fields := by
  by_contra hs
  cases n with
  | zero => simp [lockPath_zero] at h
  | succ n =>
    rw [lockPath_succ_not_struct env tpkg n t (fun fields hf => hs ⟨fields, hf⟩)] at h
    simp at h

theorem lockPath_returns (env : Info) (tpkg : types.Package) (T : GoType)
    (h : Acc (ValueEmbedded env) T) :
    ∃ n r, lockPath env tpkg n (some T) = some r := by
  induction h with
  | intro T _ ih =>
    by_cases hb : BareLock env tpkg T
    · exact ⟨1, _, lockPath_succ_bare env tpkg 0 T hb⟩
    · by_cases hs : ∃ fields, env.Underlying T = Shape.Struct fields
      · obtain ⟨fields, hs⟩ := hs
        have hall : ∀ f ∈ fields, ∃ n r, lockPath env tpkg n f.typ = some r := by
          intro f hf
          cases hft : f.typ with
          | none => exact ⟨1, none, rfl⟩
          | some t =>
            by_cases hts : ∃ fs, env.Underlying t = Shape.Struct fs
            · obtain ⟨fs, hts⟩ := hts
              exact ih t ⟨fields, f, hs, hf, hft, by rw [hts]; rfl⟩
            · exact ⟨1, none, lockPath_succ_not_struct env tpkg 0 t
                (fun fs hfs => hts ⟨fs, hfs⟩)⟩
        obtain ⟨n, r, hn⟩ := lockPath.loop_returns env tpkg T fields hall
        exact ⟨n + 1, r, by rw [lockPath_succ_loop env tpkg n T fields hs hb]; exact hn⟩
      · exact ⟨1, none, lockPath_succ_not_struct env tpkg 0 T
          (fun fs hfs => hs ⟨fs, hfs⟩)⟩

theorem adjacent_append_singleton {R : GoType → GoType → Prop} {sub : typePath} {t T : GoType}
    (hlast : sub.getLast? = some t)
    (hadj : ∀ i a b, sub[i]? = some a → sub[i + 1]? = some b → R a b) (hR : R t T) :
    ∀ i a b, (sub ++ [T])[i]? = some a → (sub ++ [T])[i + 1]? = some b → R a b := by
  intro i a b ha hb
  have hlen : i + 1 < (sub ++ [T]).length := by
    by_contra hc
    rw [List.getElem?_eq_none (Nat.le_of_not_lt hc)] at hb
    exact Option.noConfusion hb
  simp only [List.length_append, List.length_singleton] at hlen
  have hi : i < sub.length := by omega
  rw [List.getElem?_append_left hi] at ha
  by_cases h : i + 1 < sub.length
  · rw [List.getElem?_append_left h] at hb
    exact hadj i a b ha hb
  · have hi1 : i + 1 = sub.length := by omega
    rw [List.getElem?_append_right (by omega)] at hb
    have hb' : T = b := by simpa [hi1] using hb
    rw [List.getLast?_eq_getElem?] at hlast
    have hidx : sub.length - 1 = i := by omega
    rw [hidx, ha] at hlast
    have ha' : a = t := Option.some.inj hlast
    subst ha' hb'
    exact hR

theorem lockPath_path_sound (env : Info) (tpkg : types.Package) :
    ∀ (n : Nat) (T : GoType) (p : typePath),
      lockPath env tpkg n (some T) = some (some p) →
      p.getLast? = some T ∧
      (∃ L, p.head? = some L ∧ BareLock env tpkg L ∧
        Relation.ReflTransGen (Contains env) T L) ∧
      (∀ i a b, p[i]? = some a → p[i + 1]? = some b → ValueEmbedded env a b)
  | 0, T, p, h => by simp [lockPath_zero] at h
  | n + 1, T, p, h => by
    by_cases hb : BareLock env tpkg T
    · rw [lockPath_succ_bare env tpkg n T hb] at h
      have hp : p = [T] := by simpa using h.symm
      subst hp
      refine ⟨rfl, ⟨T, rfl, hb, Relation.ReflTransGen.refl⟩, ?_⟩
      intro i a b _ hb2
      simp at hb2
    · obtain ⟨fields, hs⟩ := lockPath_path_struct env tpkg (n + 1) T p h
      rw [lockPath_succ_loop env tpkg n T fields hs hb] at h
      obtain ⟨f, hf, sub, hsub, hp⟩ := lockPath.loop_path_inv _ T fields p h
      cases hft : f.typ with
      | none =>
        rw [hft] at hsub
        cases n with
        | zero => simp [lockPath_zero] at hsub
        | succ n => simp [lockPath_succ_nil] at hsub
      | some t =>
        rw [hft] at hsub
        obtain ⟨hlast, ⟨L, hhead, hL, hreach⟩, hadj⟩ := lockPath_path_sound env tpkg n t sub hsub
        obtain ⟨fs, hts⟩ := lockPath_path_struct env tpkg n t sub hsub
        have hve : ValueEmbedded env t T := ⟨fields, f, hs, hf, hft, by rw [hts]; rfl⟩
        subst hp
        refine ⟨by simp, ⟨L, ?_, hL, Relation.ReflTransGen.head hve hreach⟩, ?_⟩
        · cases sub with
          | nil => simp at hhead
          | cons x xs => simpa using hhead
        · exact adjacent_append_singleton hlast hadj hve

theorem typePath_String_eq_foldl_enum (env : Info) (path : typePath) :
    typePath.String env path = path.reverse.enum.foldl (stringStep env) "" := by
  have h : path.reverse.enum =
      (List.finRange path.length).map
        (fun i => (i.val, path.get ⟨path.length - i.val - 1, by omega⟩)) := by
    apply List.ext_getElem
    · simp
    · intro i h1 h2
      simp only [List.getElem_enum, List.getElem_reverse, List.getElem_map, List.getElem_finRange,
        List.get_eq_getElem, Fin.coe_cast, Prod.mk.injEq, true_and]
      congr 1
      omega
  rw [h, List.foldl_map]
  rfl

theorem intercalate_go_eq_foldl (sep : String) :
    ∀ (l : List String) (acc : String),
      String.intercalate.go acc sep l = l.foldl (fun b a => b ++ sep ++ a) acc
  | [], _ => rfl
  | a :: l, acc => by
    simp only [String.intercalate.go, List.foldl_cons]
    exact intercalate_go_eq_foldl sep l (acc ++ sep ++ a)

theorem stringStep_foldl_enumFrom_succ (env : Info) :
    ∀ (l : List GoType) (k : Nat) (buf : String),
      (l.enumFrom (k + 1)).foldl (stringStep env) buf =
        (l.map env.String).foldl (fun b a => b ++ " contains " ++ a) buf
  | [], _, _ => rfl
  | t :: l, k, buf => by
    simp only [List.enumFrom_cons, List.foldl_cons, List.map_cons, stringStep]
    rw [if_pos (Nat.succ_pos k)]
    exact stringStep_foldl_enumFrom_succ env l (k + 1) _

theorem typePath_String_eq_intercalate (env : Info) (path : typePath) :
    typePath.String env path = " contains ".intercalate (path.reverse.map env.String) := by
  rw [typePath_String_eq_foldl_enum]
  cases h : path.reverse with
  | nil => rfl
  | cons t l =>
    simp only [List.enum, List.enumFrom_cons, List.foldl_cons, List.map_cons, String.intercalate,
      stringStep]
    rw [intercalate_go_eq_foldl, stringStep_foldl_enumFrom_succ]
    simp

/-! ## Facts about the sample package -/

theorem sample_bareLock_Counter : BareLock sampleInfo samplePkg 0 :=
  ⟨⟨_, rfl⟩, rfl, rfl⟩

theorem sample_bareLock_Wrapper : BareLock sampleInfo samplePkg 4 :=
  ⟨⟨_, rfl⟩, rfl, rfl⟩

theorem sample_bareLock_Guarded : BareLock sampleInfo samplePkg 5 :=
  ⟨⟨_, rfl⟩, rfl, rfl⟩

theorem sample_not_bareLock_of_no_ptr_lock (t : GoType)
    (h : (sampleInfo.NewMethodSet (sampleInfo.NewPointer t)).Lookup samplePkg "Lock" = none) :
    ¬ BareLock sampleInfo samplePkg t := by
  rintro ⟨_, hp, _⟩
  rw [h] at hp
  exact Bool.noConfusion hp

theorem sample_rank_lt {inner outer : GoType} (h : ValueEmbedded sampleInfo inner outer) :
    sampleRank inner < sampleRank outer := by
  obtain ⟨fields, f, hs, hf, hft, href⟩ := h
  simp only [sampleInfo] at hs href
  split at hs
  all_goals first
    | (simp only [Shape.Struct.injEq] at hs
       subst hs
       simp only [List.mem_cons, List.mem_singleton, List.not_mem_nil, or_false] at hf
       subst hf
       simp at hft
       subst hft
       first | exact absurd href (by decide) | decide)
    | (simp only [Shape.Struct.injEq] at hs
       subst hs
       simp only [List.mem_cons, List.mem_singleton, List.not_mem_nil, or_false] at hf
       rcases hf with rfl | rfl | rfl <;> simp at hft <;> subst hft <;> decide)
    | (exfalso; split at hs <;> simp at hs)
    | simp at hs

theorem sample_wf : WellFounded (ValueEmbedded sampleInfo) :=
  Subrelation.wf (fun h => sample_rank_lt h) (InvImage.wf sampleRank Nat.lt_wfRel.wf)

theorem sample_fields_int_only {x T : GoType}
    (hT : sampleInfo.Underlying T =
      Shape.Struct [{ name := "n", typ := some 3, anonymous := false }])
    (h : ValueEmbedded sampleInfo x T) : x = 3 := by
  obtain ⟨fields, f, hs, hf, hft, _⟩ := h
  rw [hT] at hs
  simp only [Shape.Struct.injEq] at hs
  subst hs
  simp only [List.mem_singleton] at hf
  subst hf
  simpa using hft.symm

theorem sample_int_no_fields {x : GoType} : ¬ ValueEmbedded sampleInfo x 3 := by
  rintro ⟨fields, f, hs, _⟩
  simp [sampleInfo] at hs

theorem sample_below_int_only (T L : GoType)
    (hT : sampleInfo.Underlying T =
      Shape.Struct [{ name := "n", typ := some 3, anonymous := false }])
    (h : Relation.TransGen (Contains sampleInfo) T L) : ¬ BareLock sampleInfo samplePkg L := by
  have hL : L = 3 := by
    induction h with
    | single h1 => exact sample_fields_int_only hT h1
    | tail _ h2 ih => subst ih; exact absurd h2 sample_int_no_fields
  subst hL
  rintro ⟨⟨fields, hs⟩, _⟩
  simp [sampleInfo] at hs

/-! ## Fuel bounds for the field loop -/

theorem isReferenceLike_not_struct {s : Shape} (h : s.isReferenceLike = true) :
    ∀ fields, s ≠ Shape.Struct fields := by
  intro fields hs
  subst hs
  simp [Shape.isReferenceLike] at h

theorem lockPath_common_fuel (env : Info) (tpkg : types.Package) (R : Var → Option typePath) :
    ∀ (fs : List Var), (∀ g ∈ fs, ∃ n, lockPath env tpkg n g.typ = some (R g)) →
      ∃ N, ∀ g ∈ fs, ∀ m, N ≤ m → lockPath env tpkg m g.typ = some (R g)
  | [], _ => ⟨0, fun g hg => absurd hg (List.not_mem_nil g)⟩
  | f :: rest, h => by
    obtain ⟨n1, h1⟩ := h f (List.mem_cons_self f rest)
    obtain ⟨N, hN⟩ := lockPath_common_fuel env tpkg R rest
      (fun g hg => h g (List.mem_cons_of_mem f hg))
    refine ⟨max n1 N, fun g hg m hm => ?_⟩
    rcases List.mem_cons.mp hg with rfl | hg
    · exact lockPath_mono env tpkg (le_trans (le_max_left n1 N) hm) h1
    · exact hN g hg m (le_trans (le_max_right n1 N) hm)

theorem lockPath_loop_first_fuel (env : Info) (tpkg : types.Package) (T : GoType)
    (pre post : List Var) (F : Var) (sub : typePath)
    (hT : env.Underlying T = Shape.Struct (pre ++ F :: post))
    (hnot : ¬ BareLock env tpkg T)
    (hpre : ∀ g ∈ pre, ∃ n, lockPath env tpkg n g.typ = some none)
    (hF : ∃ n, lockPath env tpkg n F.typ = some (some sub)) :
    ∃ fuel, ∀ n, fuel ≤ n → lockPath env tpkg n (some T) = some (some (sub ++ [T])) := by
  obtain ⟨N, hN⟩ := lockPath_common_fuel env tpkg (fun _ => none) pre hpre
  obtain ⟨k, hk⟩ := hF
  refine ⟨max N k + 1, fun n hn => ?_⟩
  obtain ⟨m, rfl⟩ : ∃ m, n = m + 1 := ⟨n - 1, by omega⟩
  have hm : max N k ≤ m := by omega
  rw [lockPath_succ_loop env tpkg m T _ hT hnot]
  exact lockPath.loop_first _ T F post sub
    (lockPath_mono env tpkg (le_trans (le_max_right N k) hm) hk) pre
    (fun g hg => hN g hg m (le_trans (le_max_left N k) hm))

theorem lockPath_loop_nil_fuel (env : Info) (tpkg : types.Package) (T : GoType)
    (fields : List Var) (hT : env.Underlying T = Shape.Struct fields)
    (hnot : ¬ BareLock env tpkg T)
    (hall : ∀ g ∈ fields, ∃ n, lockPath env tpkg n g.typ = some none) :
    ∃ fuel, ∀ n, fuel ≤ n → lockPath env tpkg n (some T) = some none := by
  obtain ⟨N, hN⟩ := lockPath_common_fuel env tpkg (fun _ => none) fields hall
  refine ⟨N + 1, fun n hn => ?_⟩
  obtain ⟨m, rfl⟩ : ∃ m, n = m + 1 := ⟨n - 1, by omega⟩
  rw [lockPath_succ_loop env tpkg m T _ hT hnot]
  exact lockPath.loop_all_nil _ T fields (fun g hg => hN g hg m (by omega))

/-! ## The lock-path search -/

/-- Claim C1. A type whose underlying shape is a struct, with `"Lock"` in the
method set of its pointer and not in its own method set, is reported as the
one-element path holding just that type, whatever its fields are and for every
budget that allows the call at all. -/
theorem lockPath_bare_lock (env : Info) (tpkg : types.Package) (T : GoType) (fuel : Nat)
    (h : BareLock env tpkg T) :
    lockPath env tpkg (fuel + 1) (some T) = some (some [T]) :=
  lockPath_succ_bare env tpkg fuel T h

/-- Instance of C1: `Counter` of the sample package. -/
theorem lockPath_bare_lock_witness :
    BareLock sampleInfo samplePkg 0 ∧
      lockPath sampleInfo samplePkg (0 + 1) (some 0) = some (some [0]) :=
  ⟨sample_bareLock_Counter, lockPath_bare_lock sampleInfo samplePkg 0 0 sample_bareLock_Counter⟩

/-- Claim C2. For a nil type and for a type whose underlying shape is not a
struct, `lockPath` returns the nil path, whatever the method sets hold. -/
theorem lockPath_not_struct (env : Info) (tpkg : types.Package) (T : Option GoType)
    (fuel : Nat) (h : ∀ t, T = some t → ∀ fields, env.Underlying t ≠ Shape.Struct fields) :
    lockPath env tpkg (fuel + 1) T = some none := by
  cases T with
  | none => rfl
  | some t => exact lockPath_succ_not_struct env tpkg fuel t (h t rfl)

/-- Instance of C2: `*Counter`, a pointer whose method set has `Lock`. -/
theorem lockPath_not_struct_witness :
    (sampleInfo.NewMethodSet 100).Lookup samplePkg "Lock" = some { obj := "Lock" } ∧
      lockPath sampleInfo samplePkg (0 + 1) (some 100) = some none :=
  ⟨rfl, lockPath_not_struct sampleInfo samplePkg (some 100) 0 (by
    intro t ht fields hs
    cases ht
    simp [sampleInfo] at hs)⟩

/-- Counterexample to C3 as stated: `Wrapper` embeds the bare lock `Counter` by
value as its only field, yet `lockPath` answers `[Wrapper]`, printed
`"Wrapper"`, and never `[Counter, Wrapper]`, because `Lock` is promoted to
`*Wrapper` and `Wrapper` is a bare lock itself. -/
theorem value_embedded_lock_counterexample :
    sampleInfo.Underlying 4 =
        Shape.Struct [{ name := "Counter", typ := some 0, anonymous := true }] ∧
      BareLock sampleInfo samplePkg 0 ∧
      (∀ n, lockPath sampleInfo samplePkg (n + 1) (some 4) = some (some [4])) ∧
      (∀ n, lockPath sampleInfo samplePkg n (some 4) ≠ some (some [0, 4])) ∧
      typePath.String sampleInfo [4] = "Wrapper" := by
  refine ⟨rfl, sample_bareLock_Counter,
    fun n => lockPath_succ_bare sampleInfo samplePkg n 4 sample_bareLock_Wrapper, ?_, by decide⟩
  intro n
  cases n with
  | zero => simp [lockPath_zero]
  | succ n =>
    rw [lockPath_succ_bare sampleInfo samplePkg n 4 sample_bareLock_Wrapper]
    decide

/-- Claim C3, amended. A struct type `T` that is not itself a bare lock and has
a field `F` whose type `L` is a bare lock, the fields before `F` all giving the
nil path, has `lockPath(T) = [L, T]`, and that path prints as the name of `T`,
`" contains "`, the name of `L`. -/
theorem lockPath_value_embedded_lock (env : Info) (tpkg : types.Package) (T L : GoType)
    (pre post : List Var) (F : Var)
    (hT : env.Underlying T = Shape.Struct (pre ++ F :: post))
    (hF : F.typ = some L) (hL : BareLock env tpkg L) (hnot : ¬ BareLock env tpkg T)
    (hpre : ∀ g ∈ pre, ∃ n, lockPath env tpkg n g.typ = some none) :
    (∃ fuel, ∀ n, fuel ≤ n → lockPath env tpkg n (some T) = some (some [L, T])) ∧
      typePath.String env [L, T] = env.String T ++ " contains " ++ env.String L := by
  refine ⟨?_, ?_⟩
  · exact lockPath_loop_first_fuel env tpkg T pre post F [L] hT hnot hpre
      ⟨1, by rw [hF]; exact lockPath_succ_bare env tpkg 0 L hL⟩
  · rw [typePath_String_eq_intercalate]
    rfl

/-- Instance of C3: `Safe`, with its field `mu Counter`. -/
theorem lockPath_value_embedded_lock_witness :
    (∃ fuel, ∀ n, fuel ≤ n →
        lockPath sampleInfo samplePkg n (some 1) = some (some [0, 1])) ∧
      typePath.String sampleInfo [0, 1] = "Safe" ++ " contains " ++ "Counter" :=
  lockPath_value_embedded_lock sampleInfo samplePkg 1 0 [] []
    { name := "mu", typ := some 0, anonymous := false } rfl rfl sample_bareLock_Counter
    (sample_not_bareLock_of_no_ptr_lock 1 rfl)
    (fun g hg => absurd hg (List.not_mem_nil g))

/-- Counterexample to C4 as stated: `Guarded` holds the bare lock `Counter`
only through its field `mu *Counter` and has no other field, yet `lockPath`
answers `[Guarded]` and never nil, because `Guarded` declares `Lock` on its
pointer receiver. -/
theorem reference_field_counterexample :
    sampleInfo.Underlying 5 =
        Shape.Struct [{ name := "mu", typ := some 100, anonymous := false }] ∧
      sampleInfo.Underlying 100 = Shape.Pointer (some 0) ∧
      BareLock sampleInfo samplePkg 0 ∧
      (∀ n, lockPath sampleInfo samplePkg (n + 1) (some 5) = some (some [5])) ∧
      (∀ n, lockPath sampleInfo samplePkg n (some 5) ≠ some none) := by
  refine ⟨rfl, rfl, sample_bareLock_Counter,
    fun n => lockPath_succ_bare sampleInfo samplePkg n 5 sample_bareLock_Guarded, ?_⟩
  intro n
  cases n with
  | zero => simp [lockPath_zero]
  | succ n =>
    rw [lockPath_succ_bare sampleInfo samplePkg n 5 sample_bareLock_Guarded]
    decide

/-- Claim C4, amended. A struct type `T` that is not itself a bare lock, each
of whose fields either has a reference-like type (such as a pointer to a bare
lock, or an interface) or a type for which `lockPath` gives the nil path, has
the nil path. -/
theorem lockPath_reference_fields (env : Info) (tpkg : types.Package) (T : GoType)
    (fields : List Var) (hT : env.Underlying T = Shape.Struct fields)
    (hnot : ¬ BareLock env tpkg T)
    (hfields : ∀ f ∈ fields,
      (∃ t, f.typ = some t ∧ (env.Underlying t).isReferenceLike = true) ∨
      (∃ n, lockPath env tpkg n f.typ = some none)) :
    ∃ fuel, ∀ n, fuel ≤ n → lockPath env tpkg n (some T) = some none := by
  apply lockPath_loop_nil_fuel env tpkg T fields hT hnot
  intro g hg
  rcases hfields g hg with ⟨t, ht, href⟩ | hnil
  · exact ⟨1, by
      rw [ht]
      exact lockPath_succ_not_struct env tpkg 0 t (isReferenceLike_not_struct href)⟩
  · exact hnil

/-- Instance of C4: `Ref`, whose only field is `mu *Counter`. -/
theorem lockPath_reference_fields_witness :
    sampleInfo.Underlying 100 = Shape.Pointer (some 0) ∧
      BareLock sampleInfo samplePkg 0 ∧
      ∃ fuel, ∀ n, fuel ≤ n → lockPath sampleInfo samplePkg n (some 2) = some none :=
  ⟨rfl, sample_bareLock_Counter,
    lockPath_reference_fields sampleInfo samplePkg 2
      [{ name := "mu", typ := some 100, anonymous := false }] rfl
      (sample_not_bareLock_of_no_ptr_lock 2 rfl)
      (fun f hf => Or.inl ⟨100, by rw [List.mem_singleton.mp hf], rfl⟩)⟩

/-- Counterexample to C5 as stated: no field of `Counter` leads to a bare lock
(its only field is an `int`) and its by-value fields are well founded, yet
`lockPath` answers `[Counter]` and never nil, because `Counter` is a bare lock
itself. -/
theorem no_lock_below_counterexample :
    sampleInfo.Underlying 0 =
        Shape.Struct [{ name := "n", typ := some 3, anonymous := false }] ∧
      (∀ L, Relation.TransGen (Contains sampleInfo) 0 L → ¬ BareLock sampleInfo samplePkg L) ∧
      Acc (ValueEmbedded sampleInfo) 0 ∧
      (∀ n, lockPath sampleInfo samplePkg (n + 1) (some 0) = some (some [0])) ∧
      (∀ n, lockPath sampleInfo samplePkg n (some 0) ≠ some none) := by
  refine ⟨rfl, fun L hL => sample_below_int_only 0 L rfl hL, sample_wf.apply 0,
    fun n => lockPath_succ_bare sampleInfo samplePkg n 0 sample_bareLock_Counter, ?_⟩
  intro n
  cases n with
  | zero => simp [lockPath_zero]
  | succ n =>
    rw [lockPath_succ_bare sampleInfo samplePkg n 0 sample_bareLock_Counter]
    decide

/-- Claim C5, amended. Where the by-value fields below `T` are well founded (no
endless chain of structs held by value, as the type checker ensures), a type
`T` that is not itself a bare lock and from which no chain of value-embedded
fields leads to a bare lock has the nil path; fields that are not
value-embedded are not constrained and cannot cause a finding. -/
theorem lockPath_no_lock_below (env : Info) (tpkg : types.Package) (T : GoType)
    (hnot : ¬ BareLock env tpkg T)
    (hwf : Acc (ValueEmbedded env) T)
    (hno : ∀ L, Relation.TransGen (Contains env) T L → ¬ BareLock env tpkg L) :
    ∃ fuel, ∀ n, fuel ≤ n → lockPath env tpkg n (some T) = some none := by
  obtain ⟨k, r, hk⟩ := lockPath_returns env tpkg T hwf
  cases r with
  | none => exact ⟨k, fun n hn => lockPath_mono env tpkg hn hk⟩
  | some p =>
    exfalso
    obtain ⟨_, ⟨L, _, hL, hreach⟩, _⟩ := lockPath_path_sound env tpkg k T p hk
    rcases Relation.reflTransGen_iff_eq_or_transGen.mp hreach with heq | htrans
    · exact hnot (heq ▸ hL)
    · exact hno L htrans hL

/-- Instance of C5: `Plain`, a struct with one `int` field and no methods. -/
theorem lockPath_no_lock_below_witness :
    ∃ fuel, ∀ n, fuel ≤ n → lockPath sampleInfo samplePkg n (some 7) = some none :=
  lockPath_no_lock_below sampleInfo samplePkg 7
    (sample_not_bareLock_of_no_ptr_lock 7 rfl) (sample_wf.apply 7)
    (fun L hL => sample_below_int_only 7 L rfl hL)

/-- Claim C6. First match wins: in a struct type `T` that is not itself a bare
lock, when the fields before `F` all give the nil path and `F` gives the path
`sub`, `lockPath(T)` is `sub` with `T` appended, whatever the fields after `F`
are. -/
theorem lockPath_first_match (env : Info) (tpkg : types.Package) (T : GoType)
    (pre post : List Var) (F : Var) (sub : typePath)
    (hT : env.Underlying T = Shape.Struct (pre ++ F :: post))
    (hnot : ¬ BareLock env tpkg T)
    (hpre : ∀ g ∈ pre, ∃ n, lockPath env tpkg n g.typ = some none)
    (hF : ∃ n, lockPath env tpkg n F.typ = some (some sub)) :
    ∃ fuel, ∀ n, fuel ≤ n → lockPath env tpkg n (some T) = some (some (sub ++ [T])) :=
  lockPath_loop_first_fuel env tpkg T pre post F sub hT hnot hpre hF

/-- Instance of C6: `Pair`, whose fields are `x int`, `a Safe` and `b Counter`;
the path goes through `a`, and `b` plays no part. -/
theorem lockPath_first_match_witness :
    ∃ fuel, ∀ n, fuel ≤ n →
      lockPath sampleInfo samplePkg n (some 6) = some (some ([0, 1] ++ [6])) :=
  lockPath_first_match sampleInfo samplePkg 6
    [{ name := "x", typ := some 3, anonymous := false }]
    [{ name := "b", typ := some 0, anonymous := false }]
    { name := "a", typ := some 1, anonymous := false } [0, 1] rfl
    (sample_not_bareLock_of_no_ptr_lock 6 rfl)
    (fun g hg => ⟨1, by rw [List.mem_singleton.mp hg]; rfl⟩)
    ⟨2, by decide⟩

/-- Claim C7. A path returned for `T` is not empty, ends with `T`, and each
entry is the type of a value-embedded field of the struct underlying the next
entry. -/
theorem lockPath_path_wellformed (env : Info) (tpkg : types.Package) (fuel : Nat)
    (T : GoType) (p : typePath) (h : lockPath env tpkg fuel (some T) = some (some p)) :
    p ≠ [] ∧ p.getLast? = some T ∧
      ∀ i inner outer, p[i]? = some inner → p[i + 1]? = some outer →
        ValueEmbedded env inner outer := by
  obtain ⟨hlast, _, hadj⟩ := lockPath_path_sound env tpkg fuel T p h
  refine ⟨?_, hlast, hadj⟩
  intro hp
  subst hp
  simp at hlast

/-- Instance of C7: the path `[Counter, Safe, Pair]` found for `Pair`. -/
theorem lockPath_path_wellformed_witness :
    lockPath sampleInfo samplePkg 3 (some 6) = some (some [0, 1, 6]) ∧
      ([0, 1, 6] : typePath) ≠ [] ∧ ([0, 1, 6] : typePath).getLast? = some 6 ∧
      ∀ i inner outer, ([0, 1, 6] : typePath)[i]? = some inner →
        ([0, 1, 6] : typePath)[i + 1]? = some outer → ValueEmbedded sampleInfo inner outer :=
  ⟨by decide, lockPath_path_wellformed sampleInfo samplePkg 3 6 [0, 1, 6] (by decide)⟩

/-- Claim C8. The first entry of a path returned by `lockPath` is a bare lock:
a struct with `"Lock"` in the method set of its pointer and not in its own. -/
theorem lockPath_innermost_bare_lock (env : Info) (tpkg : types.Package) (fuel : Nat)
    (T : GoType) (p : typePath) (h : lockPath env tpkg fuel (some T) = some (some p)) :
    ∃ L, p[0]? = some L ∧ BareLock env tpkg L := by
  obtain ⟨_, ⟨L, hhead, hL, _⟩, _⟩ := lockPath_path_sound env tpkg fuel T p h
  exact ⟨L, by rw [← List.head?_eq_getElem?]; exact hhead, hL⟩

/-- Instance of C8: the path `[Counter, Safe]` found for `Safe`. -/
theorem lockPath_innermost_bare_lock_witness :
    lockPath sampleInfo samplePkg 2 (some 1) = some (some [0, 1]) ∧
      ∃ L, ([0, 1] : typePath)[0]? = some L ∧ BareLock sampleInfo samplePkg L :=
  ⟨by decide, lockPath_innermost_bare_lock sampleInfo samplePkg 2 1 [0, 1] (by decide)⟩

/-! ## The path printer -/

/-- Claim C9. `typePath.String` is total and gives the names of the entries in
reverse order, outermost first, joined by `" contains "`: the empty string for
the empty path and the bare name for a path of one entry. -/
theorem typePath_String_spec (env : Info) (path : typePath) :
    typePath.String env path = " contains ".intercalate (path.reverse.map env.String) ∧
      typePath.String env [] = "" ∧
      ∀ t, typePath.String env [t] = env.String t := by
  refine ⟨typePath_String_eq_intercalate env path, rfl, fun t => ?_⟩
  rw [typePath_String_eq_intercalate]
  rfl

/-! ## The signature scanner -/

theorem lockPath_common_returns (env : Info) (tpkg : types.Package) {α : Type}
    (ty : α → Option GoType) :
    ∀ (l : List α), (∀ a ∈ l, ∃ n r, lockPath env tpkg n (ty a) = some r) →
      ∃ N, ∀ a ∈ l, ∀ m, N ≤ m → lockPath env tpkg m (ty a) ≠ none
  | [], _ => ⟨0, fun a ha => absurd ha (List.not_mem_nil a)⟩
  | x :: rest, h => by
    obtain ⟨n1, r1, h1⟩ := h x (List.mem_cons_self x rest)
    obtain ⟨N, hN⟩ := lockPath_common_returns env tpkg ty rest
      (fun a ha => h a (List.mem_cons_of_mem x ha))
    refine ⟨max n1 N, fun a ha m hm => ?_⟩
    rcases List.mem_cons.mp ha with rfl | ha
    · rw [lockPath_mono env tpkg (le_trans (le_max_left n1 N) hm) h1]
      exact Option.some_ne_none r1
    · exact hN a ha m (le_trans (le_max_right n1 N) hm)

theorem checkCopyLocks.loop_spec (env : Info) (f : File) (n : Nat) (name verb : String) :
    ∀ (fs : List ast.Field) (out : List Diagnostic),
      (∀ field ∈ fs, lockPath env f.pkg.typesPkg n (f.pkg.types field.Typ) ≠ none) →
      checkCopyLocks.loop env f n name verb fs out =
        some (out ++ expectedReports env f n name verb fs)
  | [], out, _ => by simp [checkCopyLocks.loop, expectedReports]
  | field :: rest, out, h => by
    have ih := fun out2 => checkCopyLocks.loop_spec env f n name verb rest out2
      (fun g hg => h g (List.mem_cons_of_mem field hg))
    have hfield := h field (List.mem_cons_self field rest)
    simp only [checkCopyLocks.loop, expectedReports, List.filterMap_cons]
    cases hr : lockPath env f.pkg.typesPkg n (f.pkg.types field.Typ) with
    | none => exact absurd hr hfield
    | some r =>
      cases r with
      | none => simpa [expectedReports] using ih out
      | some path =>
        have ih2 := ih (Badf env out field.Typ.Pos name verb path)
        simp only [expectedReports, Badf, List.append_assoc, List.singleton_append] at ih2
        exact ih2

theorem expectedReports_pos (env : Info) (f : File) (n : Nat) (name verb : String) :
    ∀ (fs : List ast.Field),
      (expectedReports env f n name verb fs).map Diagnostic.pos =
        ((fs.map (fun field => field.Typ)).filter
          (fun e => isPath (lockPath env f.pkg.typesPkg n (f.pkg.types e)))).map ast.Expr.Pos
  | [] => rfl
  | field :: rest => by
    have ih := expectedReports_pos env f n name verb rest
    simp only [expectedReports, List.filterMap_cons, List.map_cons, List.filter_cons] at ih ⊢
    cases hr : lockPath env f.pkg.typesPkg n (f.pkg.types field.Typ) with
    | none => simpa [isPath] using ih
    | some r =>
      cases r with
      | none => simpa [isPath] using ih
      | some path => simpa [isPath] using ih

theorem checkCopyLocks_eq (env : Info) (f : File) (n : Nat) (d : ast.FuncDecl)
    (h : ∀ e ∈ typePositions d, lockPath env f.pkg.typesPkg n (f.pkg.types e) ≠ none) :
    checkCopyLocks env f n d = some
      (expectedReports env f n d.Name.Name " passes Lock by value: " (recvEntries d) ++
        expectedReports env f n d.Name.Name " passes Lock by value: " (paramEntries d) ++
        expectedReports env f n d.Name.Name " returns Lock by value: " (resultEntries d)) := by
  have hrecv : ∀ field ∈ recvEntries d,
      lockPath env f.pkg.typesPkg n (f.pkg.types field.Typ) ≠ none := fun field hf =>
    h _ (List.mem_map_of_mem _ (List.mem_append_left _ (List.mem_append_left _ hf)))
  have hparams : ∀ field ∈ paramEntries d,
      lockPath env f.pkg.typesPkg n (f.pkg.types field.Typ) ≠ none := fun field hf =>
    h _ (List.mem_map_of_mem _ (List.mem_append_left _ (List.mem_append_right _ hf)))
  have hresults : ∀ field ∈ resultEntries d,
      lockPath env f.pkg.typesPkg n (f.pkg.types field.Typ) ≠ none := fun field hf =>
    h _ (List.mem_map_of_mem _ (List.mem_append_right _ hf))
  have h1 : (match d.Recv with
      | some r =>
        match r.List with
        | field :: _ =>
          match lockPath env f.pkg.typesPkg n (f.pkg.types field.Typ) with
          | none => none
          | some (some path) =>
            some (Badf env [] field.Typ.Pos d.Name.Name " passes Lock by value: " path)
          | some none => some []
        | [] => some []
      | none => some []) =
      some (expectedReports env f n d.Name.Name " passes Lock by value: " (recvEntries d)) := by
    obtain ⟨recv, name, typ⟩ := d
    cases recv with
    | none => rfl
    | some r =>
      obtain ⟨l⟩ := r
      cases l with
      | nil => rfl
      | cons field rest =>
        have hfield := hrecv field (by simp [recvEntries])
        simp only [recvEntries, List.take_succ_cons, List.take_zero, expectedReports,
          List.filterMap_cons, List.filterMap_nil]
        cases hr : lockPath env f.pkg.typesPkg n (f.pkg.types field.Typ) with
        | none => exact absurd hr hfield
        | some r2 =>
          cases r2 with
          | none => rfl
          | some path => simp [Badf]
  have h2 : ∀ out, (match d.Typ.Params with
      | some ps =>
        checkCopyLocks.loop env f n d.Name.Name " passes Lock by value: " ps.List out
      | none => some out) =
      some (out ++ expectedReports env f n d.Name.Name " passes Lock by value: "
        (paramEntries d)) := by
    intro out
    unfold paramEntries at hparams ⊢
    cases hP : d.Typ.Params with
    | none => simp [expectedReports]
    | some ps =>
      rw [hP] at hparams
      exact checkCopyLocks.loop_spec env f n _ _ ps.List out hparams
  have h3 : ∀ out, (match d.Typ.Results with
      | some rs =>
        checkCopyLocks.loop env f n d.Name.Name " returns Lock by value: " rs.List out
      | none => some out) =
      some (out ++ expectedReports env f n d.Name.Name " returns Lock by value: "
        (resultEntries d)) := by
    intro out
    unfold resultEntries at hresults ⊢
    cases hP : d.Typ.Results with
    | none => simp [expectedReports]
    | some rs =>
      rw [hP] at hresults
      exact checkCopyLocks.loop_spec env f n _ _ rs.List out hresults
  unfold checkCopyLocks
  simp only [h1, h2, h3, Option.some_bind]

/-- Counterexample to C10 as stated: `func Grouped(a, b Counter)` has two
parameters, both of the bare-lock type `Counter`, declared in one entry of the
parameter list; `checkCopyLocks` reports once, at the shared type expression,
not twice. -/
theorem grouped_parameters_counterexample :
    paramEntries sampleGrouped =
        [{ Names := [{ Name := "a" }, { Name := "b" }], Typ := { id := 0, Pos := 10 } }] ∧
      (∀ n, lockPath sampleInfo sampleFile.pkg.typesPkg (n + 1)
        (sampleFile.pkg.types { id := 0, Pos := 10 }) = some (some [0])) ∧
      (∀ n, checkCopyLocks sampleInfo sampleFile (n + 1) sampleGrouped =
        some [{ pos := 10, msg := "Grouped passes Lock by value: Counter" }]) := by
  have h0 : ∀ n, lockPath sampleInfo samplePkg (n + 1) (some 0) = some (some [0]) :=
    fun n => lockPath_succ_bare sampleInfo samplePkg n 0 sample_bareLock_Counter
  refine ⟨rfl, h0, fun n => ?_⟩
  simp only [checkCopyLocks, checkCopyLocks.loop, sampleGrouped, sampleFile, h0, Badf,
    Option.some_bind]
  decide

/-- Claim C10, amended. On a declaration whose declared types have well-founded by-value
fields, `checkCopyLocks` returns, and it reports once for every declared type
position (first receiver entry, parameter-list entries, result-list entries)
whose type has a non-nil lock path, at the position of that type expression
and in the order of the positions: it does not stop at the first offender, and
the number of reports is the number of offending positions, so that two
offending parameter-list entries get two reports. -/
theorem checkCopyLocks_every_position (env : Info) (f : File) (d : ast.FuncDecl)
    (hwf : ∀ e ∈ typePositions d, ∀ t, f.pkg.types e = some t → Acc (ValueEmbedded env) t) :
    ∃ fuel, ∀ n, fuel ≤ n → ∃ diags, checkCopyLocks env f n d = some diags ∧
      diags.length = (typePositions d).countP
        (fun e => isPath (lockPath env f.pkg.typesPkg n (f.pkg.types e))) ∧
      diags.map Diagnostic.pos = ((typePositions d).filter
        (fun e => isPath (lockPath env f.pkg.typesPkg n (f.pkg.types e)))).map ast.Expr.Pos := by
  have hret : ∀ e ∈ typePositions d,
      ∃ n r, lockPath env f.pkg.typesPkg n (f.pkg.types e) = some r := by
    intro e he
    cases ht : f.pkg.types e with
    | none => exact ⟨1, none, rfl⟩
    | some t => exact lockPath_returns env f.pkg.typesPkg t (hwf e he t ht)
  obtain ⟨N, hN⟩ := lockPath_common_returns env f.pkg.typesPkg f.pkg.types (typePositions d) hret
  refine ⟨N, fun n hn => ?_⟩
  have hpos : (expectedReports env f n d.Name.Name " passes Lock by value: " (recvEntries d) ++
        expectedReports env f n d.Name.Name " passes Lock by value: " (paramEntries d) ++
        expectedReports env f n d.Name.Name " returns Lock by value: " (resultEntries d)).map
          Diagnostic.pos =
      ((typePositions d).filter
        (fun e => isPath (lockPath env f.pkg.typesPkg n (f.pkg.types e)))).map ast.Expr.Pos := by
    simp only [typePositions, List.map_append, List.filter_append, expectedReports_pos]
  refine ⟨_, checkCopyLocks_eq env f n d (fun e he => hN e he n hn), ?_, hpos⟩
  rw [List.countP_eq_length_filter, ← List.length_map _ Diagnostic.pos, hpos, List.length_map]

/-- Instance of C10: `func Two(a Counter, b Safe)` has two offending parameters
and gets two reports, one at each parameter's type. -/
theorem checkCopyLocks_every_position_witness :
    checkCopyLocks sampleInfo sampleFile 3 sampleTwo =
        some [{ pos := 10, msg := "Two passes Lock by value: Counter" },
              { pos := 20, msg := "Two passes Lock by value: Safe contains Counter" }] ∧
      ∃ fuel, ∀ n, fuel ≤ n → ∃ diags, checkCopyLocks sampleInfo sampleFile n sampleTwo = some diags ∧
        diags.length = (typePositions sampleTwo).countP
          (fun e => isPath (lockPath sampleInfo sampleFile.pkg.typesPkg n
            (sampleFile.pkg.types e))) ∧
        diags.map Diagnostic.pos = ((typePositions sampleTwo).filter
          (fun e => isPath (lockPath sampleInfo sampleFile.pkg.typesPkg n
            (sampleFile.pkg.types e)))).map ast.Expr.Pos :=
  ⟨by decide, checkCopyLocks_every_position sampleInfo sampleFile sampleTwo
    (fun _ _ t _ => sample_wf.apply t)⟩

theorem checkCopyLocks_returns (env : Info) (f : File) (d : ast.FuncDecl)
    (hwf : ∀ e ∈ typePositions d, ∀ t, f.pkg.types e = some t → Acc (ValueEmbedded env) t) :
    ∃ fuel, ∀ n, fuel ≤ n → checkCopyLocks env f n d = some
      (expectedReports env f n d.Name.Name " passes Lock by value: " (recvEntries d) ++
        expectedReports env f n d.Name.Name " passes Lock by value: " (paramEntries d) ++
        expectedReports env f n d.Name.Name " returns Lock by value: " (resultEntries d)) := by
  have hret : ∀ e ∈ typePositions d,
      ∃ n r, lockPath env f.pkg.typesPkg n (f.pkg.types e) = some r := by
    intro e he
    cases ht : f.pkg.types e with
    | none => exact ⟨1, none, rfl⟩
    | some t => exact lockPath_returns env f.pkg.typesPkg t (hwf e he t ht)
  obtain ⟨N, hN⟩ := lockPath_common_returns env f.pkg.typesPkg f.pkg.types (typePositions d) hret
  exact ⟨N, fun n hn => checkCopyLocks_eq env f n d (fun e he => hN e he n hn)⟩

theorem expectedReports_mem (env : Info) (f : File) (n : Nat) (name verb : String)
    (fs : List ast.Field) (dg : Diagnostic)
    (h : dg ∈ expectedReports env f n name verb fs) :
    ∃ field ∈ fs, ∃ path,
      lockPath env f.pkg.typesPkg n (f.pkg.types field.Typ) = some (some path) ∧
      dg = { pos := field.Typ.Pos, msg := name ++ verb ++ typePath.String env path } := by
  unfold expectedReports at h
  obtain ⟨field, hfield, hdg⟩ := List.mem_filterMap.mp h
  refine ⟨field, hfield, ?_⟩
  cases hr : lockPath env f.pkg.typesPkg n (f.pkg.types field.Typ) with
  | none => simp [hr] at hdg
  | some r =>
    cases r with
    | none => simp [hr] at hdg
    | some path =>
      refine ⟨path, rfl, ?_⟩
      simp only [hr, Option.some.injEq] at hdg
      exact hdg.symm

theorem sampleNamed_bareLock_Counter : BareLock sampleNamed samplePkg 0 :=
  ⟨⟨_, rfl⟩, rfl, rfl⟩

/-- Counterexample to C11 as stated: for `func Inc(c Counter)` in the package
`sample` the one report reads `"Inc passes Lock by value: sample.Counter"`.
The word after `passes` is the fixed text `Lock` of the format, not the name
of the type, and the path is printed by `String()`, which for a named type
gives the package-qualified name. -/
theorem Inc_message_counterexample :
    BareLock sampleNamed samplePkg 0 ∧
      (∀ n, checkCopyLocks sampleNamed sampleFile (n + 1) sampleInc =
        some [{ pos := 10, msg := "Inc passes Lock by value: sample.Counter" }]) ∧
      (∀ n, checkCopyLocks sampleNamed sampleFile n sampleInc ≠
        some [{ pos := 10, msg := "Inc passes Counter by value: Counter" }]) := by
  have h0 : ∀ n, lockPath sampleNamed samplePkg (n + 1) (some 0) = some (some [0]) :=
    fun n => lockPath_succ_bare sampleNamed samplePkg n 0 sampleNamed_bareLock_Counter
  have h1 : ∀ n, checkCopyLocks sampleNamed sampleFile (n + 1) sampleInc =
      some [{ pos := 10, msg := "Inc passes Lock by value: sample.Counter" }] := by
    intro n
    simp only [checkCopyLocks, checkCopyLocks.loop, sampleInc, sampleFile, h0, Badf,
      Option.some_bind]
    decide
  refine ⟨sampleNamed_bareLock_Counter, h1, fun n => ?_⟩
  cases n with
  | zero => decide
  | succ n =>
    rw [h1 n]
    decide

/-- Claim C11, amended. For a function `Inc` whose only parameter entry has a
bare-lock type `T`, with no receiver and no results, `checkCopyLocks` makes
exactly one report, at the position of the parameter's type expression, and
its message is `"Inc passes Lock by value: "` followed by `String()` of `T`,
whatever that display name is. -/
theorem checkCopyLocks_Inc (env : Info) (f : File) (e : ast.Expr) (T : GoType) (n : Nat)
    (hT : f.pkg.types e = some T) (hL : BareLock env f.pkg.typesPkg T) :
    checkCopyLocks env f (n + 1)
        { Recv := none
          Name := { Name := "Inc" }
          Typ := { Params := some { List := [{ Names := [{ Name := "c" }], Typ := e }] }
                   Results := none } } =
      some [{ pos := e.Pos, msg := "Inc passes Lock by value: " ++ env.String T }] := by
  have h0 := lockPath_succ_bare env f.pkg.typesPkg n T hL
  have hs : typePath.String env [T] = env.String T := by
    rw [typePath_String_eq_intercalate]
    rfl
  have hmsg : "Inc" ++ " passes Lock by value: " = "Inc passes Lock by value: " := by decide
  simp only [checkCopyLocks, checkCopyLocks.loop, hT, h0, Badf, hs, Option.some_bind, hmsg,
    List.nil_append]

/-- Instance of C11: `func Inc(c Counter)` in the package `sample`, whose type
`Counter` is printed as `sample.Counter`. -/
theorem checkCopyLocks_Inc_witness :
    checkCopyLocks sampleNamed sampleFile (0 + 1) sampleInc =
      some [{ pos := 10, msg := "Inc passes Lock by value: " ++ "sample.Counter" }] :=
  checkCopyLocks_Inc sampleNamed sampleFile { id := 0, Pos := 10 } 0 0 rfl
    sampleNamed_bareLock_Counter

/-- Claim C12. On a declaration whose declared types have well-founded by-value
fields, the reports of `checkCopyLocks` split into those for the receiver and
the parameters, followed by those for the results.  Each of the former reads
`<name> passes Lock by value: <path>` and each of the latter
`<name> returns Lock by value: <path>`, where `<name>` is the function's name
and `<path>` is `String()` of the lock path of the offending type: `passes`
occurs for receiver and parameters only and `returns` for results only. -/
theorem checkCopyLocks_messages (env : Info) (f : File) (d : ast.FuncDecl)
    (hwf : ∀ e ∈ typePositions d, ∀ t, f.pkg.types e = some t → Acc (ValueEmbedded env) t) :
    ∃ fuel, ∀ n, fuel ≤ n → ∃ passes returns,
      checkCopyLocks env f n d = some (passes ++ returns) ∧
      (∀ dg ∈ passes, ∃ field ∈ recvEntries d ++ paramEntries d, ∃ path,
        lockPath env f.pkg.typesPkg n (f.pkg.types field.Typ) = some (some path) ∧
        dg.pos = field.Typ.Pos ∧
        dg.msg = (d.Name.Name ++ " passes " ++ "Lock") ++
          (" by value: " ++ typePath.String env path)) ∧
      (∀ dg ∈ returns, ∃ field ∈ resultEntries d, ∃ path,
        lockPath env f.pkg.typesPkg n (f.pkg.types field.Typ) = some (some path) ∧
        dg.pos = field.Typ.Pos ∧
        dg.msg = (d.Name.Name ++ " returns " ++ "Lock") ++
          (" by value: " ++ typePath.String env path)) := by
  obtain ⟨N, hN⟩ := checkCopyLocks_returns env f d hwf
  refine ⟨N, fun n hn => ⟨_, _, hN n hn, ?_, ?_⟩⟩
  · intro dg hdg
    have hmem : ∃ field ∈ recvEntries d ++ paramEntries d, ∃ path,
        lockPath env f.pkg.typesPkg n (f.pkg.types field.Typ) = some (some path) ∧
        dg = { pos := field.Typ.Pos,
               msg := d.Name.Name ++ " passes Lock by value: " ++ typePath.String env path } := by
      rcases List.mem_append.mp hdg with h | h
      · obtain ⟨field, hf, path, hp, he⟩ := expectedReports_mem env f n _ _ _ dg h
        exact ⟨field, List.mem_append_left _ hf, path, hp, he⟩
      · obtain ⟨field, hf, path, hp, he⟩ := expectedReports_mem env f n _ _ _ dg h
        exact ⟨field, List.mem_append_right _ hf, path, hp, he⟩
    obtain ⟨field, hf, path, hp, he⟩ := hmem
    refine ⟨field, hf, path, hp, by rw [he], ?_⟩
    rw [he]
    have hverb : " passes Lock by value: " = " passes " ++ "Lock" ++ " by value: " := by decide
    simp only [hverb, String.append_assoc]
  · intro dg hdg
    obtain ⟨field, hf, path, hp, he⟩ := expectedReports_mem env f n _ _ _ dg hdg
    refine ⟨field, hf, path, hp, by rw [he], ?_⟩
    rw [he]
    have hverb : " returns Lock by value: " = " returns " ++ "Lock" ++ " by value: " := by decide
    simp only [hverb, String.append_assoc]

/-- Instance of C12: `func (p Pair) Mix(r Ref, s Safe) (Plain, Counter)`, with
one report for the receiver, one for `s` and one for the second result. -/
theorem checkCopyLocks_messages_witness :
    checkCopyLocks sampleInfo sampleFile 4 sampleMix =
        some ([{ pos := 5, msg := "Mix passes Lock by value: Pair contains Safe contains Counter" },
               { pos := 20, msg := "Mix passes Lock by value: Safe contains Counter" }] ++
              [{ pos := 40, msg := "Mix returns Lock by value: Counter" }]) ∧
      ∃ fuel, ∀ n, fuel ≤ n → ∃ passes returns,
        checkCopyLocks sampleInfo sampleFile n sampleMix = some (passes ++ returns) ∧
        (∀ dg ∈ passes, ∃ field ∈ recvEntries sampleMix ++ paramEntries sampleMix, ∃ path,
          lockPath sampleInfo sampleFile.pkg.typesPkg n (sampleFile.pkg.types field.Typ) =
            some (some path) ∧
          dg.pos = field.Typ.Pos ∧
          dg.msg = (sampleMix.Name.Name ++ " passes " ++ "Lock") ++
            (" by value: " ++ typePath.String sampleInfo path)) ∧
        (∀ dg ∈ returns, ∃ field ∈ resultEntries sampleMix, ∃ path,
          lockPath sampleInfo sampleFile.pkg.typesPkg n (sampleFile.pkg.types field.Typ) =
            some (some path) ∧
          dg.pos = field.Typ.Pos ∧
          dg.msg = (sampleMix.Name.Name ++ " returns " ++ "Lock") ++
            (" by value: " ++ typePath.String sampleInfo path)) :=
  ⟨by decide, checkCopyLocks_messages sampleInfo sampleFile sampleMix
    (fun _ _ t _ => sample_wf.apply t)⟩

/-! ## Termination -/

theorem structField_wf (env : Info) (hfin : FinitelyManyStructs env)
    (hacyc : AcyclicByValue env) : WellFounded (StructField env) := by
  obtain ⟨N, hN⟩ := hfin
  have hlt : ∀ t, (∃ fs, env.Underlying t = Shape.Struct fs) → t < N := by
    rintro t ⟨fs, h⟩
    by_contra hc
    exact hN t (Nat.le_of_not_lt hc) fs h
  let r : Fin N → Fin N → Prop := fun a b => Relation.TransGen (StructField env) a.val b.val
  haveI : IsTrans (Fin N) r := ⟨fun _ _ _ hab hbc => Relation.TransGen.trans hab hbc⟩
  haveI : IsIrrefl (Fin N) r := ⟨fun a h => hacyc a.val h⟩
  have hwf : WellFounded r := Finite.wellFounded_of_trans_of_irrefl r
  have hacc : ∀ a : Fin N, Acc (StructField env) a.val := by
    intro a
    induction a using hwf.induction with
    | _ a ih =>
      constructor
      intro y hy
      have hys : ∃ fs, env.Underlying y = Shape.Struct fs := by
        obtain ⟨_, _, _, _, _, h⟩ := hy
        exact h
      exact ih ⟨y, hlt y hys⟩ (Relation.TransGen.single hy)
  constructor
  intro t
  constructor
  intro y hy
  have hys : ∃ fs, env.Underlying y = Shape.Struct fs := by
    obtain ⟨_, _, _, _, _, h⟩ := hy
    exact h
  exact hacc ⟨y, hlt y hys⟩

theorem acc_valueEmbedded_of_structField_wf (env : Info) (hwf : WellFounded (StructField env))
    (T : GoType) : Acc (ValueEmbedded env) T := by
  induction T using hwf.induction with
  | _ T ih =>
    constructor
    intro y hy
    by_cases hys : ∃ fs, env.Underlying y = Shape.Struct fs
    · obtain ⟨fields, f, hs, hf, hft, _⟩ := hy
      exact ih y ⟨fields, f, hs, hf, hft, hys⟩
    · constructor
      rintro z ⟨fields, _, hs, _⟩
      exact absurd ⟨fields, hs⟩ hys

theorem lockPath_returns_from (env : Info) (tpkg : types.Package) (T : Option GoType)
    (h : ∀ t, T = some t → Acc (ValueEmbedded env) t) :
    ∃ fuel, ∀ n, fuel ≤ n → ∃ r, lockPath env tpkg n T = some r := by
  cases T with
  | none => exact ⟨1, fun n hn => ⟨none, lockPath_mono env tpkg hn rfl⟩⟩
  | some t =>
    obtain ⟨k, r, hk⟩ := lockPath_returns env tpkg t (h t rfl)
    exact ⟨k, fun n hn => ⟨r, lockPath_mono env tpkg hn hk⟩⟩

theorem sample_finitelyManyStructs : FinitelyManyStructs sampleInfo := by
  refine ⟨8, fun t ht fields hs => ?_⟩
  simp only [sampleInfo] at hs
  split at hs
  all_goals first
    | exact absurd ht (by decide)
    | (split at hs <;> simp at hs)

theorem sample_acyclic : AcyclicByValue sampleInfo := by
  intro t h
  have hlt : ∀ a b, Relation.TransGen (StructField sampleInfo) a b →
      sampleRank a < sampleRank b := by
    intro a b hab
    induction hab with
    | single h1 =>
      obtain ⟨fields, f, hs, hf, hft, fs, hfs⟩ := h1
      exact sample_rank_lt ⟨fields, f, hs, hf, hft, by rw [hfs]; rfl⟩
    | tail _ h2 ih =>
      obtain ⟨fields, f, hs, hf, hft, fs, hfs⟩ := h2
      exact lt_trans ih (sample_rank_lt ⟨fields, f, hs, hf, hft, by rw [hfs]; rfl⟩)
  exact lt_irrefl _ (hlt t t h)

theorem loop_never_returns :
    ∀ n, lockPath loopInfo samplePkg n (some 0) = none
  | 0 => rfl
  | n + 1 => by
    have hnot : ¬ BareLock loopInfo samplePkg 0 := by
      rintro ⟨_, hp, _⟩
      exact Bool.noConfusion hp
    rw [lockPath_succ_loop loopInfo samplePkg n 0 _ rfl hnot]
    simp only [lockPath.loop, loop_never_returns n]

/-- Counterexample to C13 as stated: in the malformed graph
`type Loop struct { next Loop }` the struct reaches itself through a by-value
field, and `lockPath` never returns on it, whatever the budget: re-entry is
not detected, no nil comes back for the branch. -/
theorem visited_set_counterexample :
    loopInfo.Underlying 0 =
        Shape.Struct [{ name := "next", typ := some 0, anonymous := false }] ∧
      ValueEmbedded loopInfo 0 0 ∧
      ∀ n, lockPath loopInfo samplePkg n (some 0) = none :=
  ⟨rfl, ⟨_, _, rfl, List.mem_singleton.mpr rfl, rfl, rfl⟩, loop_never_returns⟩

theorem lockPath.loop_reentry (rec : Option GoType → PathResult) (typ : GoType)
    (F : Var) (post : List Var) (hF : rec F.typ = none) :
    ∀ (pre : List Var), (∀ g ∈ pre, ∀ p, rec g.typ ≠ some (some p)) →
      lockPath.loop rec typ (pre ++ F :: post) = none
  | [], _ => by simp only [List.nil_append, lockPath.loop, hF]
  | g :: pre, h => by
    have ih := lockPath.loop_reentry rec typ F post hF pre
      (fun g2 hg p => h g2 (List.mem_cons_of_mem g hg) p)
    simp only [List.cons_append, lockPath.loop]
    cases hg : rec g.typ with
    | none => rfl
    | some r =>
      cases r with
      | none => exact ih
      | some p => exact absurd hg (h g (List.mem_cons_self g pre) p)

/-- Claim C13, amended. `lockPath` keeps no visited set: its recursion is
bounded by the type graph alone.  Whenever the by-value fields below the
queried type are well founded (no endless chain of structs held by value, so
no cycle either), `lockPath` terminates with a path or with nil.  Re-entry is
not detected: when a struct `T` that is not a bare lock has a field of type
`T` itself and no earlier field of `T` yields a lock path, `lockPath` never
returns on `T`, whatever the budget. -/
theorem lockPath_without_visited_set (env : Info) (tpkg : types.Package) (T : GoType) :
    (Acc (ValueEmbedded env) T →
        ∃ fuel, ∀ n, fuel ≤ n → ∃ r, lockPath env tpkg n (some T) = some r) ∧
      (∀ (pre post : List Var) (F : Var),
        env.Underlying T = Shape.Struct (pre ++ F :: post) →
        ¬ BareLock env tpkg T →
        F.typ = some T →
        (∀ g ∈ pre, ∀ n p, lockPath env tpkg n g.typ ≠ some (some p)) →
        ∀ n, lockPath env tpkg n (some T) = none) := by
  refine ⟨fun hwf => lockPath_returns_from env tpkg (some T)
    (fun t ht => by cases ht; exact hwf), ?_⟩
  intro pre post F hT hnot hF hpre n
  induction n with
  | zero => rfl
  | succ n ih =>
    rw [lockPath_succ_loop env tpkg n T _ hT hnot]
    exact lockPath.loop_reentry _ T F post (by rw [hF]; exact ih) pre
      (fun g hg p => hpre g hg n p)

/-- Instance of C13: `Pair` of the sample package, whose by-value fields are
well founded, and `Loop`, whose only field has the type `Loop` again. -/
theorem lockPath_without_visited_set_witness :
    lockPath sampleInfo samplePkg 3 (some 6) = some (some [0, 1, 6]) ∧
      (∃ fuel, ∀ n, fuel ≤ n → ∃ r, lockPath sampleInfo samplePkg n (some 6) = some r) ∧
      (∀ n, lockPath loopInfo samplePkg n (some 0) = none) :=
  ⟨by decide,
    (lockPath_without_visited_set sampleInfo samplePkg 6).1 (sample_wf.apply 6),
    (lockPath_without_visited_set loopInfo samplePkg 0).2 [] []
      { name := "next", typ := some 0, anonymous := false } rfl
      (fun h => Bool.noConfusion h.2.1) rfl
      (fun g hg => absurd hg (List.not_mem_nil g))⟩

/-- Claim C14. When by-value struct containment is acyclic, in a program with
finitely many struct types, the recursion of `lockPath` on field types is well
founded and `lockPath` is total: every input, nil included, yields a path or
nil once the budget is large enough, and nothing else can come back. -/
theorem lockPath_total_of_acyclic (env : Info) (tpkg : types.Package)
    (hfin : FinitelyManyStructs env) (hacyc : AcyclicByValue env) :
    WellFounded (StructField env) ∧
      ∀ T : Option GoType, ∃ fuel, ∀ n, fuel ≤ n → ∃ r, lockPath env tpkg n T = some r := by
  have hwf := structField_wf env hfin hacyc
  exact ⟨hwf, fun T => lockPath_returns_from env tpkg T
    (fun t _ => acc_valueEmbedded_of_structField_wf env hwf t)⟩

/-- Instance of C14: the sample package. -/
theorem lockPath_total_of_acyclic_witness :
    WellFounded (StructField sampleInfo) ∧
      ∀ T : Option GoType, ∃ fuel, ∀ n, fuel ≤ n →
        ∃ r, lockPath sampleInfo samplePkg n T = some r :=
  lockPath_total_of_acyclic sampleInfo samplePkg sample_finitelyManyStructs sample_acyclic

/-! ## Which types have a lock path -/

theorem lockPath.loop_nil_inv (rec : Option GoType → PathResult) (typ : GoType) :
    ∀ (fs : List Var), lockPath.loop rec typ fs = some none →
      ∀ f ∈ fs, rec f.typ = some none
  | [], _ => fun f hf => absurd hf (List.not_mem_nil f)
  | g :: rest, h => by
    simp only [lockPath.loop] at h
    cases h1 : rec g.typ with
    | none => simp [h1] at h
    | some x =>
      rw [h1] at h
      cases x with
      | some sub => simp at h
      | none =>
        intro f hf
        rcases List.mem_cons.mp hf with rfl | hf
        · exact h1
        · exact lockPath.loop_nil_inv rec typ rest h f hf

theorem lockPath.loop_map_typ (rec : Option GoType → PathResult) (typ : GoType)
    (g : Var → Var) (hg : ∀ v, (g v).typ = v.typ) :
    ∀ (fs : List Var), lockPath.loop rec typ (fs.map g) = lockPath.loop rec typ fs
  | [] => rfl
  | f :: rest => by
    simp only [List.map_cons, lockPath.loop, hg f, lockPath.loop_map_typ rec typ g hg rest]

theorem lockPath_withFlags (env : Info) (tpkg : types.Package) (flag : GoType → Var → Bool) :
    ∀ (n : Nat) (T : Option GoType),
      lockPath (withFlags env flag) tpkg n T = lockPath env tpkg n T
  | 0, T => by simp [lockPath_zero]
  | n + 1, none => rfl
  | n + 1, some typ => by
    have ih : (fun ftyp => lockPath (withFlags env flag) tpkg n ftyp) =
        (fun ftyp => lockPath env tpkg n ftyp) :=
      funext (fun ftyp => lockPath_withFlags env tpkg flag n ftyp)
    cases h : env.Underlying typ with
    | Struct fields =>
      have h2 : (withFlags env flag).Underlying typ =
          Shape.Struct (fields.map fun v => { v with anonymous := flag typ v }) := by
        simp only [withFlags, h]
      simp only [lockPath, h, h2, ih]
      have hloop := lockPath.loop_map_typ (fun ftyp => lockPath env tpkg n ftyp) typ
        (fun v => { v with anonymous := flag typ v }) (fun _ => rfl) fields
      simp only [withFlags, hloop]
    | _ =>
      have h2 : ∀ fields, (withFlags env flag).Underlying typ ≠ Shape.Struct fields := by
        intro fields hs
        simp [withFlags, h] at hs
      rw [lockPath_succ_not_struct _ tpkg n typ h2,
        lockPath_succ_not_struct env tpkg n typ (by intro fields hs; rw [h] at hs; cases hs)]

theorem lockPath_complete (env : Info) (tpkg : types.Package) (T : GoType)
    (hacc : Acc (ValueEmbedded env) T) :
    ∀ L, Relation.ReflTransGen (fun outer inner => StructField env inner outer) T L →
      BareLock env tpkg L → ∃ n p, lockPath env tpkg n (some T) = some (some p) := by
  induction hacc with
  | intro T hT ih =>
    intro L hreach hL
    by_cases hb : BareLock env tpkg T
    · exact ⟨1, [T], lockPath_succ_bare env tpkg 0 T hb⟩
    · rcases Relation.ReflTransGen.cases_head hreach with heq | ⟨T1, hstep, hrest⟩
      · exact absurd (heq ▸ hL) hb
      · obtain ⟨fields, f, hs, hf, hft, fs, hfs⟩ := hstep
        have hve : ValueEmbedded env T1 T := ⟨fields, f, hs, hf, hft, by rw [hfs]; rfl⟩
        obtain ⟨n1, p1, h1⟩ := ih T1 hve L hrest hL
        have hall : ∀ g ∈ fields, ∃ n r, lockPath env tpkg n g.typ = some r := by
          intro g hg
          cases hgt : g.typ with
          | none => exact ⟨1, none, rfl⟩
          | some t =>
            by_cases hts : ∃ fs, env.Underlying t = Shape.Struct fs
            · obtain ⟨fs2, hts⟩ := hts
              exact lockPath_returns env tpkg t
                (hT t ⟨fields, g, hs, hg, hgt, by rw [hts]; rfl⟩)
            · exact ⟨1, none, lockPath_succ_not_struct env tpkg 0 t
                (fun fs2 hfs2 => hts ⟨fs2, hfs2⟩)⟩
        obtain ⟨n, r, hn⟩ := lockPath.loop_returns env tpkg T fields hall
        have hm : lockPath.loop (fun ftyp => lockPath env tpkg (max n n1) ftyp) T fields =
            some r :=
          lockPath.loop_mono (fun t r ht => lockPath_mono env tpkg (le_max_left n n1) ht)
            T fields r hn
        cases r with
        | some p =>
          exact ⟨max n n1 + 1, p, by
            rw [lockPath_succ_loop env tpkg _ T fields hs hb]; exact hm⟩
        | none =>
          exfalso
          have hnil := lockPath.loop_nil_inv _ T fields hm f hf
          rw [hft, lockPath_mono env tpkg (le_max_right n n1) h1] at hnil
          simp at hnil

theorem structChain_of_contains (env : Info) {T L : GoType}
    (hL : ∃ fs, env.Underlying L = Shape.Struct fs)
    (h : Relation.ReflTransGen (Contains env) T L) :
    Relation.ReflTransGen (fun outer inner => StructField env inner outer) T L := by
  induction h using Relation.ReflTransGen.head_induction_on with
  | refl => exact Relation.ReflTransGen.refl
  | head hstep hrest ih =>
    rename_i a c
    have hc : ∃ fs, env.Underlying c = Shape.Struct fs := by
      rcases Relation.ReflTransGen.cases_head hrest with heq | ⟨d, hd, _⟩
      · exact heq ▸ hL
      · obtain ⟨fields, _, hs, _⟩ := hd
        exact ⟨fields, hs⟩
    obtain ⟨fields, f, hs, hf, hft, _⟩ := hstep
    exact Relation.ReflTransGen.head ⟨fields, f, hs, hf, hft, hc⟩ ih

/-- Claim C15. In a program with finitely many struct types whose by-value
struct containment is acyclic, `lockPath(T)` is a path exactly when a chain of
struct types leads from `T`, through declared field types, to a bare lock, and
nil exactly when no such chain exists.  The embedded flag of the fields plays
no role: changing the flags changes no result.  A struct with `Lock` in its
own (value) method set is not a bare lock and is searched through its
fields. -/
theorem lockPath_finding_iff (env : Info) (tpkg : types.Package)
    (hfin : FinitelyManyStructs env) (hacyc : AcyclicByValue env) (T : GoType) :
    ((∃ fuel, ∀ n, fuel ≤ n → isPath (lockPath env tpkg n (some T)) = true) ↔
        LockChain env tpkg T) ∧
      ((∃ fuel, ∀ n, fuel ≤ n → lockPath env tpkg n (some T) = some none) ↔
        ¬ LockChain env tpkg T) ∧
      (∀ flag n, lockPath (withFlags env flag) tpkg n (some T) = lockPath env tpkg n (some T)) ∧
      (∀ n fields sel, env.Underlying T = Shape.Struct fields →
        (env.NewMethodSet T).Lookup tpkg "Lock" = some sel →
        lockPath env tpkg (n + 1) (some T) =
          lockPath.loop (fun ftyp => lockPath env tpkg n ftyp) T fields) := by
  have hacc : Acc (ValueEmbedded env) T :=
    acc_valueEmbedded_of_structField_wf env (structField_wf env hfin hacyc) T
  have hsound : ∀ n p, lockPath env tpkg n (some T) = some (some p) → LockChain env tpkg T := by
    intro n p hp
    obtain ⟨_, ⟨L, _, hL, hreach⟩, _⟩ := lockPath_path_sound env tpkg n T p hp
    exact ⟨L, structChain_of_contains env hL.1 hreach, hL⟩
  have hcomplete : LockChain env tpkg T →
      ∃ fuel, ∀ n, fuel ≤ n → isPath (lockPath env tpkg n (some T)) = true := by
    rintro ⟨L, hreach, hL⟩
    obtain ⟨k, p, hk⟩ := lockPath_complete env tpkg T hacc L hreach hL
    exact ⟨k, fun n hn => by rw [lockPath_mono env tpkg hn hk]; rfl⟩
  refine ⟨⟨?_, hcomplete⟩, ⟨?_, ?_⟩, fun flag n => lockPath_withFlags env tpkg flag n (some T), ?_⟩
  · rintro ⟨fuel, h⟩
    have h1 := h fuel (le_refl fuel)
    cases hr : lockPath env tpkg fuel (some T) with
    | none => rw [hr] at h1; exact Bool.noConfusion h1
    | some r =>
      cases r with
      | none => rw [hr] at h1; exact Bool.noConfusion h1
      | some p => exact hsound fuel p hr
  · rintro ⟨fuel, h⟩ hchain
    obtain ⟨fuel2, h2⟩ := hcomplete hchain
    have h3 := h2 (max fuel fuel2) (le_max_right fuel fuel2)
    rw [h (max fuel fuel2) (le_max_left fuel fuel2)] at h3
    exact Bool.noConfusion h3
  · intro hno
    obtain ⟨k, r, hk⟩ := lockPath_returns env tpkg T hacc
    cases r with
    | none => exact ⟨k, fun n hn => lockPath_mono env tpkg hn hk⟩
    | some p => exact absurd (hsound k p hk) hno
  · intro n fields sel hs hsel
    refine lockPath_succ_loop env tpkg n T fields hs ?_
    rintro ⟨_, _, hv⟩
    rw [hsel] at hv
    exact Option.noConfusion hv

/-- Instance of C15: `Pair` reaches the bare lock `Counter` through its named
fields `a Safe` and `mu Counter`; and `Held`, whose own `Lock` has a value
receiver, is searched through its field `c Counter`. -/
theorem lockPath_finding_iff_witness :
    lockPath sampleInfo samplePkg 3 (some 6) = some (some [0, 1, 6]) ∧
      lockPath promoInfo samplePkg 2 (some 4) = some (some [0, 4]) ∧
      (((∃ fuel, ∀ n, fuel ≤ n → isPath (lockPath sampleInfo samplePkg n (some 6)) = true) ↔
          LockChain sampleInfo samplePkg 6) ∧
        ((∃ fuel, ∀ n, fuel ≤ n → lockPath sampleInfo samplePkg n (some 6) = some none) ↔
          ¬ LockChain sampleInfo samplePkg 6) ∧
        (∀ flag n, lockPath (withFlags sampleInfo flag) samplePkg n (some 6) =
          lockPath sampleInfo samplePkg n (some 6)) ∧
        (∀ n fields sel, sampleInfo.Underlying 6 = Shape.Struct fields →
          (sampleInfo.NewMethodSet 6).Lookup samplePkg "Lock" = some sel →
          lockPath sampleInfo samplePkg (n + 1) (some 6) =
            lockPath.loop (fun ftyp => lockPath sampleInfo samplePkg n ftyp) 6 fields)) :=
  ⟨by decide, by decide, lockPath_finding_iff sampleInfo samplePkg sample_finitelyManyStructs
    sample_acyclic 6⟩

/-! ## Promotion of `Lock` from an embedded field -/

theorem promotedFrom_append (env : Info) (decl : GoType → Declared) (name : String) :
    ∀ (l₁ l₂ : List Var),
      promotedFrom env decl name (l₁ ++ l₂) =
        promotedFrom env decl name l₁ ++ promotedFrom env decl name l₂
  | [], _ => rfl
  | f :: rest, l₂ => by
    have ih := promotedFrom_append env decl name rest l₂
    show promotedFrom env decl name (f :: (rest ++ l₂)) = _
    simp only [promotedFrom, ih, List.append_assoc]

theorem promotedFrom_nil_of_none (env : Info) (decl : GoType → Declared) (name : String) :
    ∀ (l : List Var),
      (∀ g ∈ l, ∀ E viaPtr, embeddedBase env g = some (E, viaPtr) →
        ownMembers env decl name E = []) →
      promotedFrom env decl name l = []
  | [], _ => rfl
  | g :: rest, h => by
    have ih := promotedFrom_nil_of_none env decl name rest
      (fun g2 hg => h g2 (List.mem_cons_of_mem g hg))
    simp only [promotedFrom, ih, List.append_nil]
    cases hb : embeddedBase env g with
    | none => rfl
    | some x =>
      obtain ⟨E, viaPtr⟩ := x
      simp only [h g (List.mem_cons_self g rest) E viaPtr hb, List.map_nil]

theorem promo_followsPromotion (T : GoType) :
    FollowsPromotion promoInfo samplePkg promoDecl "Lock" T := by
  have hcases : T = 0 ∨ T = 1 ∨ T = 2 ∨ T = 4 ∨
      ((∀ fields, promoInfo.Underlying T ≠ Shape.Struct fields) ∧ promoDecl T = promoDecl 3) := by
    match T with
    | 0 => exact Or.inl rfl
    | 1 => exact Or.inr (Or.inl rfl)
    | 2 => exact Or.inr (Or.inr (Or.inl rfl))
    | 3 => exact Or.inr (Or.inr (Or.inr (Or.inr ⟨fun _ h => by simp [promoInfo] at h, rfl⟩)))
    | 4 => exact Or.inr (Or.inr (Or.inr (Or.inl rfl)))
    | n + 5 =>
      refine Or.inr (Or.inr (Or.inr (Or.inr ⟨fun fields h => ?_, rfl⟩)))
      simp only [promoInfo] at h
      split at h <;> exact Shape.noConfusion h
  rcases hcases with rfl | rfl | rfl | rfl | ⟨hns, hd⟩
  · exact ⟨by decide, by decide⟩
  · exact ⟨by decide, by decide⟩
  · exact ⟨by decide, by decide⟩
  · exact ⟨by decide, by decide⟩
  · have hown : ownMembers promoInfo promoDecl "Lock" T = [] := by
      unfold ownMembers
      rw [hd]
      cases hU : promoInfo.Underlying T with
      | Struct fields => exact absurd hU (hns fields)
      | _ => rfl
    have hprom : promotedMembers promoInfo promoDecl "Lock" T = [] := by
      unfold promotedMembers
      cases hU : promoInfo.Underlying T with
      | Struct fields => exact absurd hU (hns fields)
      | _ => rfl
    constructor <;>
    · intro b hb
      simp [resolveMethod, hown, hprom] at hb

theorem promo_bareLock_Counter : BareLock promoInfo samplePkg 0 :=
  ⟨⟨_, rfl⟩, rfl, rfl⟩

theorem promo_not_bareLock_Both : ¬ BareLock promoInfo samplePkg 2 := by
  rintro ⟨_, hp, _⟩
  exact Bool.noConfusion hp

theorem promo_Both_path :
    ∀ n, lockPath promoInfo samplePkg (n + 2) (some 2) = some (some [0, 2]) := by
  intro n
  rw [lockPath_succ_loop promoInfo samplePkg (n + 1) 2 _ rfl promo_not_bareLock_Both]
  simp only [lockPath.loop, lockPath_succ_bare promoInfo samplePkg n 0 promo_bareLock_Counter]
  rfl

/-- Counterexample to C16 as stated: `Both` embeds the bare lock `Counter` by
value and declares no `Lock`, and the method sets follow the promotion rule;
but `Both` also embeds `M`, which has a `Lock` of its own.  The two `Lock`
methods sit at the same depth, so neither `Both` nor `*Both` has `Lock` in its
method set: `Both` is not a bare lock and `lockPath` answers
`[Counter, Both]`, never `[Both]`. -/
theorem embedded_lock_counterexample :
    promoInfo.Underlying 2 =
        Shape.Struct [{ name := "Counter", typ := some 0, anonymous := true },
                      { name := "M", typ := some 1, anonymous := true }] ∧
      BareLock promoInfo samplePkg 0 ∧
      ownMembers promoInfo promoDecl "Lock" 2 = [] ∧
      (∀ T, FollowsPromotion promoInfo samplePkg promoDecl "Lock" T) ∧
      (promoInfo.NewMethodSet (promoInfo.NewPointer 2)).Lookup samplePkg "Lock" = none ∧
      (promoInfo.NewMethodSet 2).Lookup samplePkg "Lock" = none ∧
      ¬ BareLock promoInfo samplePkg 2 ∧
      (∀ n, lockPath promoInfo samplePkg (n + 2) (some 2) = some (some [0, 2])) ∧
      (∀ n, lockPath promoInfo samplePkg n (some 2) ≠ some (some [2])) := by
  refine ⟨rfl, promo_bareLock_Counter, by decide, promo_followsPromotion, rfl, rfl,
    promo_not_bareLock_Both, promo_Both_path, ?_⟩
  intro n
  match n with
  | 0 => decide
  | 1 => decide
  | n + 2 =>
    rw [promo_Both_path n]
    decide

/-- Claim C16, amended. When the method sets follow the promotion rule, a
struct `T` that embeds by value a bare-lock type `L` whose `Lock` is declared
on the pointer receiver of `L`, that has no method or field named `Lock` of its
own, and none of whose other embedded fields brings in a type with a method or
field named `Lock` of its own, is itself a bare lock: `lockPath(T) = [T]`,
printed as the name of `T`, and never `[L, T]`. -/
theorem embedded_lock_is_bare (env : Info) (tpkg : types.Package) (decl : GoType → Declared)
    (T L : GoType) (pre post : List Var) (f : Var)
    (hT : env.Underlying T = Shape.Struct (pre ++ f :: post))
    (hanon : f.anonymous = true) (hfL : f.typ = some L)
    (hL : BareLock env tpkg L)
    (hLown : ownMembers env decl "Lock" L = [Member.method true])
    (hrule : FollowsPromotion env tpkg decl "Lock" T)
    (hown : ownMembers env decl "Lock" T = [])
    (hothers : ∀ g ∈ pre ++ post, ∀ E viaPtr, embeddedBase env g = some (E, viaPtr) →
      ownMembers env decl "Lock" E = []) :
    BareLock env tpkg T ∧
      (∀ n, lockPath env tpkg (n + 1) (some T) = some (some [T])) ∧
      typePath.String env [T] = env.String T ∧
      ∀ n, lockPath env tpkg n (some T) ≠ some (some [L, T]) := by
  have hbase : embeddedBase env f = some (L, false) := by
    obtain ⟨⟨fs, hfs⟩, _⟩ := hL
    simp only [embeddedBase, hanon, hfL, hfs, if_true]
  have hprom : promotedMembers env decl "Lock" T = [(Member.method true, false)] := by
    simp only [promotedMembers, hT]
    rw [promotedFrom_append]
    simp only [promotedFrom, hbase, hLown,
      promotedFrom_nil_of_none env decl "Lock" pre
        (fun g hg => hothers g (List.mem_append_left post hg)),
      promotedFrom_nil_of_none env decl "Lock" post
        (fun g hg => hothers g (List.mem_append_right pre hg)),
      List.map_cons, List.map_nil, List.nil_append, List.append_nil, List.singleton_append]
  have hval : resolveMethod env decl "Lock" T false = some false := by
    simp only [resolveMethod, hown, hprom]
    rfl
  have hptr : resolveMethod env decl "Lock" T true = some true := by
    simp only [resolveMethod, hown, hprom]
    rfl
  have hbare : BareLock env tpkg T := by
    refine ⟨⟨_, hT⟩, hrule.2 true hptr, ?_⟩
    have h := hrule.1 false hval
    cases hv : (env.NewMethodSet T).Lookup tpkg "Lock" with
    | none => rfl
    | some sel =>
      rw [hv] at h
      exact Bool.noConfusion h
  refine ⟨hbare, fun n => lockPath_succ_bare env tpkg n T hbare, ?_, ?_⟩
  · rw [typePath_String_eq_intercalate]
    rfl
  · intro n
    cases n with
    | zero => simp [lockPath_zero]
    | succ n =>
      rw [lockPath_succ_bare env tpkg n T hbare]
      simp

/-- Instance of C16: `Wrapper`, which embeds `Counter` and nothing else. -/
theorem embedded_lock_is_bare_witness :
    FollowsPromotion sampleInfo samplePkg sampleDecl "Lock" 4 ∧
      BareLock sampleInfo samplePkg 4 ∧
      (∀ n, lockPath sampleInfo samplePkg (n + 1) (some 4) = some (some [4])) ∧
      typePath.String sampleInfo [4] = "Wrapper" ∧
      ∀ n, lockPath sampleInfo samplePkg n (some 4) ≠ some (some [0, 4]) :=
  have hrule : FollowsPromotion sampleInfo samplePkg sampleDecl "Lock" 4 :=
    ⟨by decide, by decide⟩
  ⟨hrule, embedded_lock_is_bare sampleInfo samplePkg sampleDecl 4 0 [] []
    { name := "Counter", typ := some 0, anonymous := true } rfl rfl rfl
    sample_bareLock_Counter (by decide) hrule (by decide)
    (fun g hg => absurd hg (List.not_mem_nil g))⟩

/-! ## Order of the reports -/

/-- Claim C17. On a declaration whose declared types have well-founded by-value
fields, `checkCopyLocks` makes its reports in the order fixed by the
declaration: first the report for the receiver, for which only the first
receiver entry is looked at, then those for the parameter-list entries in list
order, then those for the result-list entries in list order.  A missing
receiver, a nil parameter list and a nil result list contribute nothing. -/
theorem checkCopyLocks_order (env : Info) (f : File) (d : ast.FuncDecl)
    (hwf : ∀ e ∈ typePositions d, ∀ t, f.pkg.types e = some t → Acc (ValueEmbedded env) t) :
    (∃ fuel, ∀ n, fuel ≤ n → checkCopyLocks env f n d = some
      (expectedReports env f n d.Name.Name " passes Lock by value: " (recvEntries d) ++
        expectedReports env f n d.Name.Name " passes Lock by value: " (paramEntries d) ++
        expectedReports env f n d.Name.Name " returns Lock by value: " (resultEntries d))) ∧
      (∀ r, d.Recv = some r → recvEntries d = r.List.take 1) ∧
      (d.Recv = none → recvEntries d = []) ∧
      (d.Typ.Params = none → paramEntries d = []) ∧
      (d.Typ.Results = none → resultEntries d = []) := by
  refine ⟨checkCopyLocks_returns env f d hwf, ?_, ?_, ?_, ?_⟩
  · intro r hr
    simp only [recvEntries, hr]
  · intro hr
    simp only [recvEntries, hr]
  · intro hp
    simp only [paramEntries, hp]
  · intro hp
    simp only [resultEntries, hp]

/-- Instance of C17: `func (p Pair) Mix(r Ref, s Safe) (Plain, Counter)`; the
report for the receiver comes first, then the one for `s`, then the one for
the second result. -/
theorem checkCopyLocks_order_witness :
    checkCopyLocks sampleInfo sampleFile 4 sampleMix =
        some [{ pos := 5, msg := "Mix passes Lock by value: Pair contains Safe contains Counter" },
              { pos := 20, msg := "Mix passes Lock by value: Safe contains Counter" },
              { pos := 40, msg := "Mix returns Lock by value: Counter" }] ∧
      ((∃ fuel, ∀ n, fuel ≤ n → checkCopyLocks sampleInfo sampleFile n sampleMix = some
        (expectedReports sampleInfo sampleFile n sampleMix.Name.Name " passes Lock by value: "
            (recvEntries sampleMix) ++
          expectedReports sampleInfo sampleFile n sampleMix.Name.Name " passes Lock by value: "
            (paramEntries sampleMix) ++
          expectedReports sampleInfo sampleFile n sampleMix.Name.Name " returns Lock by value: "
            (resultEntries sampleMix))) ∧
        (∀ r, sampleMix.Recv = some r → recvEntries sampleMix = r.List.take 1) ∧
        (sampleMix.Recv = none → recvEntries sampleMix = []) ∧
        (sampleMix.Typ.Params = none → paramEntries sampleMix = []) ∧
        (sampleMix.Typ.Results = none → resultEntries sampleMix = [])) :=
  ⟨by decide, checkCopyLocks_order sampleInfo sampleFile sampleMix
    (fun _ _ t _ => sample_wf.apply t)⟩

end vet
